import Mathlib

/-!
Verification of the generalized multi-kernel successive-cancellation (SC)
polar decoder and of the surrounding module/task framework of the aff3ct
repository, against its natural-language specification.

The development shallowly embeds:
* the recognized polar kernels and their per-child combine functions
  (`Decoder_polar_MK_SC_naive` constructor lambdas),
* the recursive decode pass (`recursive_decode`), its re-encode step
  (`encode_polar_kernel` and the `idx`/`u` indexing), and the information
  store (`recursive_store`),
* the frame-batched `Decoder_i::hard_decode` contract,
* the decoder constructor validation sequence,
* the `Task` port framework (`create_socket`, `exec`).

Bits are modelled as `Bool` (the C++ `B` values stay in `{0,1}` throughout),
log-likelihood ratios as `ℚ` (the code's operations on LLRs used here are
sign/abs/min/negation/addition, which are exact).
-/

/-- Entry `G[j][i]` of a kernel matrix given as a list of rows
(`code.get_kernel_matrices()[0]`), out-of-range entries read as `0`. -/
def getG (G : List (List Bool)) (j i : ℕ) : Bool :=
  (G.getD j []).getD i false

/-- The Arikan (butterfly) kernel `{{1,0},{1,1}}`. -/
def kArikan : List (List Bool) := [[true, false], [true, true]]

/-- The first recognized size-3 kernel `{{1,1,1},{1,0,1},{0,1,1}}`. -/
def kT1 : List (List Bool) :=
  [[true, true, true], [true, false, true], [false, true, true]]

/-- The second recognized size-3 kernel `{{1,0,0},{1,1,0},{1,0,1}}`. -/
def kT2 : List (List Bool) :=
  [[true, false, false], [true, true, false], [true, false, true]]

/-- A combine function (one of the constructor lambdas): takes the parent's
per-kernel LLR slice and the already-decided hard bits of preceding children
and returns the propagated LLR. -/
def Lam : Type := (ℕ → ℚ) → (ℕ → Bool) → ℚ

/-- Combine functions of the Arikan kernel, translated from the constructor
lambdas (lines 104-122 of `Decoder_polar_MK_SC_naive.cpp`).
`std::signbit x` is modelled as `x < 0` and C++ bit value `0` as `false`. -/
def lamsArikan : ℕ → Lam
  | 0 => fun L _ =>
      let sign := xor (decide (L 0 < 0)) (decide (L 1 < 0))
      let abs0 := |L 0|
      let abs1 := |L 1|
      let m := min abs0 abs1
      cond sign (-m) m
  | 1 => fun L bits => (cond (bits 0) (-(L 0)) (L 0)) + L 1
  | _ => fun _ _ => 0

/-- Combine functions of the kernel `{{1,1,1},{1,0,1},{0,1,1}}`, translated
from the constructor lambdas (lines 123-153). -/
def lamsT1 : ℕ → Lam
  | 0 => fun L _ =>
      let sign := xor (xor (decide (L 0 < 0)) (decide (L 1 < 0))) (decide (L 2 < 0))
      let m := min (min |L 0| |L 1|) |L 2|
      cond sign (-m) m
  | 1 => fun L bits =>
      let sign := xor (decide (L 1 < 0)) (decide (L 2 < 0))
      let m := min |L 1| |L 2|
      let l1_l2 := cond sign (-m) m
      (cond (bits 0) (-(L 0)) (L 0)) + l1_l2
  | 2 => fun L bits =>
      (cond (bits 0) (-(L 1)) (L 1)) +
      (cond (xor (bits 0) (bits 1)) (-(L 2)) (L 2))
  | _ => fun _ _ => 0

/-- Combine functions of the kernel `{{1,0,0},{1,1,0},{1,0,1}}`, translated
from the constructor lambdas (lines 154-186). -/
def lamsT2 : ℕ → Lam
  | 0 => fun L _ =>
      let sign := xor (xor (decide (L 0 < 0)) (decide (L 1 < 0))) (decide (L 2 < 0))
      let m := min (min |L 0| |L 1|) |L 2|
      cond sign (-m) m
  | 1 => fun L bits =>
      let hl0 := cond (bits 0) (-(L 0)) (L 0)
      let sign := xor (decide (hl0 < 0)) (decide (L 2 < 0))
      let m := min |hl0| |L 2|
      let hl0_l2 := cond sign (-m) m
      hl0_l2 + L 1
  | 2 => fun L bits =>
      let hl0 := cond (xor (bits 0) (bits 1)) (-(L 0)) (L 0)
      hl0 + L 2
  | _ => fun _ _ => 0

/-- Kernel matrix of each recognized kernel, indexed `0`/`1`/`2`. -/
def kerG : Fin 3 → List (List Bool)
  | 0 => kArikan
  | 1 => kT1
  | 2 => kT2

/-- Combine-function family of each recognized kernel. -/
def kerLams : Fin 3 → ℕ → Lam
  | 0 => lamsArikan
  | 1 => lamsT1
  | 2 => lamsT2

/-- Modelled from the spec: `tools::h_LLR` is not under `src/`; the spec
fixes the hard decision as "negative LLR ⇒ 1, else 0". -/
def hLLR (x : ℚ) : Bool := decide (x < 0)

/-- Parity `⨁_j (v j && G[j][i])`: the XOR of the bits `v j` selected by
column `i` of the kernel matrix (row `i` of the stored transpose `Ke`). -/
def kernXor (G : List (List Bool)) (v : ℕ → Bool) (i : ℕ) : Bool :=
  (List.range G.length).foldl (fun acc j => xor acc (v j && getG G j i)) false

/-- One call of the `encode_polar_kernel` lambda (lines 330-340): for each
`i < size`, write `x[idx i] := ⨁_j (u j && Ke i j)` where `Ke i j = G[j][i]`
is the transposed kernel stored by the constructor (lines 79-86). -/
def encodePolarKernel (G : List (List Bool)) (u : ℕ → Bool) (idx : ℕ → ℕ)
    (x : ℕ → Bool) (size : ℕ) : ℕ → Bool :=
  (List.range size).foldl
    (fun s i =>
      Function.update s (idx i)
        ((List.range size).foldl (fun acc j => xor acc (u j && getG G j i)) false))
    x

/-- The re-encode pass of `recursive_decode` (lines 342-358): for each kernel
repetition `k < n_kernels`, set `idx i = n_kernels * i + k`, gather
`u i = sKids (idx i / sub_part) (idx i % sub_part)` from the children's
partial sums and apply `encodePolarKernel`.  Here `sub_part = n_kernels =`
the child width `G.length ^ d`. -/
def reEncode (G : List (List Bool)) (sKids : ℕ → ℕ → Bool) (d : ℕ) : ℕ → Bool :=
  let ks := G.length
  let sub := ks ^ d
  (List.range sub).foldl
    (fun s k =>
      encodePolarKernel G
        (fun i => sKids ((sub * i + k) / sub) ((sub * i + k) % sub))
        (fun i => sub * i + k) s ks)
    (fun _ => false)

/-- Result of decoding one subtree: the node's partial-sum vector `s` and
the decided leaf bits in lane order. -/
def ScRes : Type := (ℕ → Bool) × (ℕ → Bool)

/-- Default (unused) subtree result. -/
def dres : ScRes := (fun _ => false, fun _ => false)

/-- Sequential decoding of the first `c` children of an internal node
(lines 315-328): child `c` receives LLR
`lambdas[c] (parent LLR slice) (bits of children 0..c-1)` entrywise and is
decoded by `recur` (the depth-`d` recursive decode).  Children are processed
left to right, each seeing the final partial sums of its predecessors. -/
def scKids (lams : ℕ → Lam) (sub : ℕ) (f : ℕ → Bool) (l : ℕ → ℚ)
    (recur : (ℕ → Bool) → (ℕ → ℚ) → ScRes) : ℕ → List ScRes
  | 0 => []
  | c + 1 =>
      let prev := scKids lams sub f l recur c
      prev ++ [recur (fun i => f (c * sub + i))
        (fun i => lams c (fun j => l (j * sub + i))
          (fun j => if j < c then (prev.getD j dres).1 i else false))]

/-- The recursive SC decode (`recursive_decode`, lines 305-365) on a perfect
tree of depth `d` over kernel `G`: a leaf decides
`s[0] = !frozen && hLLR l[0]` (line 362); an internal node decodes its
children in order and re-encodes its partial sums from theirs.  The second
component tracks the decided leaf bits in lane order (leaf `p` lives in
child `p / sub` at leaf `p % sub`). -/
def scNode (G : List (List Bool)) (lams : ℕ → Lam) :
    ℕ → (ℕ → Bool) → (ℕ → ℚ) → ScRes
  | 0, f, l =>
      (fun _ => !f 0 && hLLR (l 0), fun _ => !f 0 && hLLR (l 0))
  | d + 1, f, l =>
      let sub := G.length ^ d
      let rs := scKids lams sub f l (scNode G lams d) G.length
      (reEncode G (fun j k => (rs.getD j dres).1 k) d,
       fun p => (rs.getD (p / sub) dres).2 (p % sub))

/-- Modelled from the spec: the generalized kernel transform used for
encoding (the multi-kernel encoder itself is not under `src/`; the spec
describes it as the recursive kernel factorization whose per-node transform
is the one `recursive_decode` re-applies to partial sums): a depth-`d`
transform maps leaf values `u` to the codeword, combining the children's
codewords by `x[j*sub+i] = ⨁_m (G[m][j] && x_m i)`. -/
def encTree (G : List (List Bool)) : ℕ → (ℕ → Bool) → ℕ → Bool
  | 0, u => u
  | d + 1, u => fun p =>
      let sub := G.length ^ d
      kernXor G (fun m => encTree G d (fun i => u (m * sub + i)) (p % sub)) (p / sub)

/-- Lane values of the tree: information bits of `v` at the non-frozen
lanes (in order), `0` at frozen lanes.  This is the leaf assignment whose
encoding the noiseless LLRs are derived from. -/
def expandF : List Bool → List Bool → ℕ → Bool
  | [], _ => fun _ => false
  | b :: f, v =>
      if b then
        fun i => match i with
          | 0 => false
          | i + 1 => expandF f v i
      else
        fun i => match i with
          | 0 => v.headD false
          | i + 1 => expandF f v.tail i

/-- The information store (`recursive_store`, lines 367-379): walk the
leaves in lane order and emit the decided bits of the non-frozen lanes. -/
def storeInfoF : List Bool → (ℕ → Bool) → List Bool
  | [], _ => []
  | b :: f, dec =>
      if b then storeInfoF f (fun i => dec (i + 1))
      else dec 0 :: storeInfoF f (fun i => dec (i + 1))

/-! ### Fold helper lemmas -/

theorem foldlXorCongr (n : ℕ) (f g : ℕ → Bool) (h : ∀ j, j < n → f j = g j) :
    ∀ a : Bool, (List.range n).foldl (fun acc j => xor acc (f j)) a =
      (List.range n).foldl (fun acc j => xor acc (g j)) a := by
  induction n with
  | zero => intro a; simp
  | succ n ih =>
      intro a
      rw [List.range_succ, List.foldl_append, List.foldl_append]
      rw [ih (fun j hj => h j (Nat.lt_succ_of_lt hj))]
      simp [h n (Nat.lt_succ_self n)]

theorem foldlUpdateMem {β : Type} (g : ℕ → ℕ) (v : ℕ → β) (x : ℕ → β) (n : ℕ)
    (hinj : ∀ a b, a < n → b < n → g a = g b → a = b) :
    ∀ i, i < n →
      ((List.range n).foldl (fun s i2 => Function.update s (g i2) (v i2)) x) (g i) = v i := by
  induction n with
  | zero => intro i hi; omega
  | succ n ih =>
      intro i hi
      rw [List.range_succ, List.foldl_append]
      simp only [List.foldl_cons, List.foldl_nil]
      rcases Nat.lt_succ_iff_lt_or_eq.mp hi with hlt | heq
      · have hne : g n ≠ g i := by
          intro hgg
          have := hinj n i (Nat.lt_succ_self n) (Nat.lt_succ_of_lt hlt) hgg
          omega
        rw [Function.update_noteq (Ne.symm hne)]
        exact ih (fun a b ha hb => hinj a b (Nat.lt_succ_of_lt ha) (Nat.lt_succ_of_lt hb)) i hlt
      · subst heq
        rw [Function.update_same]

theorem foldlUpdateNotMem {β : Type} (g : ℕ → ℕ) (v : ℕ → β) (x : ℕ → β) (n : ℕ)
    (q : ℕ) (hq : ∀ i, i < n → g i ≠ q) :
    ((List.range n).foldl (fun s i2 => Function.update s (g i2) (v i2)) x) q = x q := by
  induction n with
  | zero => simp
  | succ n ih =>
      rw [List.range_succ, List.foldl_append]
      simp only [List.foldl_cons, List.foldl_nil]
      rw [Function.update_noteq (Ne.symm (hq n (Nat.lt_succ_self n)))]
      exact ih (fun i hi => hq i (Nat.lt_succ_of_lt hi))

theorem kernXorCongr (G : List (List Bool)) (v w : ℕ → Bool)
    (h : ∀ j, j < G.length → v j = w j) (i : ℕ) : kernXor G v i = kernXor G w i := by
  unfold kernXor
  exact foldlXorCongr G.length (fun j => v j && getG G j i) (fun j => w j && getG G j i)
    (fun j hj => by show (v j && getG G j i) = (w j && getG G j i); rw [h j hj]) false

/-- The `idx`/`u` indexing of the re-encode pass works out to the clean
per-repetition parity: position `sub * i + k` (output `i` of repetition `k`)
holds the XOR of the children's bits `sKids j k` selected by `G[j][i]`. -/
theorem reEncodeEval (G : List (List Bool)) (sK : ℕ → ℕ → Bool) (d : ℕ)
    (i k : ℕ) (hi : i < G.length) (hk : k < G.length ^ d) :
    reEncode G sK d (G.length ^ d * i + k) = kernXor G (fun j => sK j k) i := by
  have hsub : 0 < G.length ^ d := Nat.pos_of_ne_zero (by intro h; rw [h] at hk; omega)
  set ks := G.length with hks
  set sub := ks ^ d with hsubdef
  -- round `k2` evaluated at a position of repetition `k2` gives the parity
  have hB : ∀ (s : ℕ → Bool),
      encodePolarKernel G (fun i2 => sK ((sub * i2 + k) / sub) ((sub * i2 + k) % sub))
        (fun i2 => sub * i2 + k) s ks (sub * i + k) =
      kernXor G (fun j => sK j k) i := by
    intro s
    have hm := foldlUpdateMem (β := Bool) (fun i2 => sub * i2 + k)
      (fun i2 => (List.range ks).foldl
        (fun acc j => xor acc
          ((sK ((sub * j + k) / sub) ((sub * j + k) % sub)) && getG G j i2)) false)
      s ks
      (fun a b _ _ hab => by
        have hab2 : sub * a + k = sub * b + k := hab
        have : sub * a = sub * b := by omega
        exact Nat.eq_of_mul_eq_mul_left hsub this)
      i hi
    have hx : (List.range ks).foldl
        (fun acc j => xor acc
          ((sK ((sub * j + k) / sub) ((sub * j + k) % sub)) && getG G j i)) false =
        kernXor G (fun j => sK j k) i := by
      refine Eq.trans (foldlXorCongr ks _ (fun j => sK j k && getG G j i) ?_ false) rfl
      intro j _
      show (sK ((sub * j + k) / sub) ((sub * j + k) % sub) && getG G j i) =
        (sK j k && getG G j i)
      rw [Nat.mul_add_div hsub, Nat.div_eq_of_lt hk, Nat.add_zero,
        Nat.mul_add_mod, Nat.mod_eq_of_lt hk]
    exact Eq.trans hm hx
  -- rounds of other repetitions do not touch positions of repetition `k`
  have hA : ∀ (k2 : ℕ), k2 < sub → k2 ≠ k → ∀ (s : ℕ → Bool),
      encodePolarKernel G (fun i2 => sK ((sub * i2 + k2) / sub) ((sub * i2 + k2) % sub))
        (fun i2 => sub * i2 + k2) s ks (sub * i + k) =
      s (sub * i + k) := by
    intro k2 hk2 hne s
    apply foldlUpdateNotMem
    intro i2 _ hcontra
    have hcontra2 : sub * i2 + k2 = sub * i + k := hcontra
    have := congrArg (fun z => z % sub) hcontra2
    simp only [Nat.mul_add_mod] at this
    rw [Nat.mod_eq_of_lt hk2, Nat.mod_eq_of_lt hk] at this
    exact hne this
  -- outer induction over the repetition loop
  have hmain : ∀ (n : ℕ), n ≤ sub → ∀ (s0 : ℕ → Bool), k < n →
      ((List.range n).foldl
        (fun s k2 =>
          encodePolarKernel G (fun i2 => sK ((sub * i2 + k2) / sub) ((sub * i2 + k2) % sub))
            (fun i2 => sub * i2 + k2) s ks) s0) (sub * i + k) =
      kernXor G (fun j => sK j k) i := by
    intro n
    induction n with
    | zero => intro _ _ h; omega
    | succ n ih =>
        intro hn s0 hkn
        rw [List.range_succ, List.foldl_append]
        simp only [List.foldl_cons, List.foldl_nil]
        rcases Nat.lt_succ_iff_lt_or_eq.mp hkn with hlt | heq
        · rw [hA n (by omega) (by omega) _]
          exact ih (by omega) s0 hlt
        · subst heq
          exact hB _
  exact hmain sub le_rfl (fun _ => false) hk

/-! ### Sign bookkeeping over the rationals -/

theorem flipSign (x : ℚ) (b s : Bool) (hx : x ≠ 0) (hs : x < 0 ↔ s = true) :
    cond b (-x) x ≠ 0 ∧ (cond b (-x) x < 0 ↔ xor s b = true) := by
  cases b <;> cases s <;> simp_all
  · exact lt_of_le_of_ne hs (Ne.symm hx)
  · exact le_of_lt hs

theorem addSign (x y : ℚ) (s : Bool) (hx : x ≠ 0) (hy : y ≠ 0)
    (hxs : x < 0 ↔ s = true) (hys : y < 0 ↔ s = true) :
    x + y ≠ 0 ∧ (x + y < 0 ↔ s = true) := by
  cases s
  · simp only [Bool.false_eq_true, iff_false, not_lt] at hxs hys
    have hx2 : 0 < x := lt_of_le_of_ne hxs (Ne.symm hx)
    have hy2 : 0 < y := lt_of_le_of_ne hys (Ne.symm hy)
    constructor
    · intro h; linarith
    · simp only [Bool.false_eq_true, iff_false, not_lt]; linarith
  · simp only [iff_true] at hxs hys
    constructor
    · intro h; linarith
    · simp only [iff_true]; linarith

theorem sminSign (a b : ℚ) (sa sb : Bool) (ha : a ≠ 0) (hb : b ≠ 0)
    (hsa : a < 0 ↔ sa = true) (hsb : b < 0 ↔ sb = true) :
    (cond (xor (decide (a < 0)) (decide (b < 0))) (-(min |a| |b|)) (min |a| |b|)) ≠ 0 ∧
    ((cond (xor (decide (a < 0)) (decide (b < 0))) (-(min |a| |b|)) (min |a| |b|)) < 0 ↔
      xor sa sb = true) := by
  have hm : 0 < min |a| |b| := lt_min (abs_pos.mpr ha) (abs_pos.mpr hb)
  have hda : decide (a < 0) = sa := by cases sa <;> simp_all
  have hdb : decide (b < 0) = sb := by cases sb <;> simp_all
  rw [hda, hdb]
  cases xor sa sb
  · simp only [Bool.cond_false]
    refine ⟨ne_of_gt hm, ?_⟩
    simp only [Bool.false_eq_true, iff_false, not_lt]
    exact hm.le
  · simp only [Bool.cond_true]
    refine ⟨fun h => ne_of_gt hm (neg_eq_zero.mp h), ?_⟩
    simpa using neg_lt_zero.mpr hm

theorem smin3Sign (a b c : ℚ) (sa sb sc : Bool) (ha : a ≠ 0) (hb : b ≠ 0) (hc : c ≠ 0)
    (hsa : a < 0 ↔ sa = true) (hsb : b < 0 ↔ sb = true) (hsc : c < 0 ↔ sc = true) :
    (cond (xor (xor (decide (a < 0)) (decide (b < 0))) (decide (c < 0)))
      (-(min (min |a| |b|) |c|)) (min (min |a| |b|) |c|)) ≠ 0 ∧
    ((cond (xor (xor (decide (a < 0)) (decide (b < 0))) (decide (c < 0)))
      (-(min (min |a| |b|) |c|)) (min (min |a| |b|) |c|)) < 0 ↔
      xor (xor sa sb) sc = true) := by
  have hm : 0 < min (min |a| |b|) |c| :=
    lt_min (lt_min (abs_pos.mpr ha) (abs_pos.mpr hb)) (abs_pos.mpr hc)
  have hda : decide (a < 0) = sa := by cases sa <;> simp_all
  have hdb : decide (b < 0) = sb := by cases sb <;> simp_all
  have hdc : decide (c < 0) = sc := by cases sc <;> simp_all
  rw [hda, hdb, hdc]
  cases xor (xor sa sb) sc
  · simp only [Bool.cond_false]
    refine ⟨ne_of_gt hm, ?_⟩
    simp only [Bool.false_eq_true, iff_false, not_lt]
    exact hm.le
  · simp only [Bool.cond_true]
    refine ⟨fun h => ne_of_gt hm (neg_eq_zero.mp h), ?_⟩
    simpa using neg_lt_zero.mpr hm

/-! ### The per-kernel sign facts -/

theorem kernXorA0 (U : ℕ → Bool) : kernXor kArikan U 0 = xor (U 0) (U 1) := by
  simp [kernXor, kArikan, getG, List.range_succ]

theorem kernXorA1 (U : ℕ → Bool) : kernXor kArikan U 1 = U 1 := by
  simp [kernXor, kArikan, getG, List.range_succ]

theorem kernXorT1e0 (U : ℕ → Bool) : kernXor kT1 U 0 = xor (U 0) (U 1) := by
  simp [kernXor, kT1, getG, List.range_succ]

theorem kernXorT1e1 (U : ℕ → Bool) : kernXor kT1 U 1 = xor (U 0) (U 2) := by
  simp [kernXor, kT1, getG, List.range_succ, Bool.xor_assoc]

theorem kernXorT1e2 (U : ℕ → Bool) : kernXor kT1 U 2 = xor (xor (U 0) (U 1)) (U 2) := by
  simp [kernXor, kT1, getG, List.range_succ]

theorem kernXorT2e0 (U : ℕ → Bool) : kernXor kT2 U 0 = xor (xor (U 0) (U 1)) (U 2) := by
  simp [kernXor, kT2, getG, List.range_succ]

theorem kernXorT2e1 (U : ℕ → Bool) : kernXor kT2 U 1 = U 1 := by
  simp [kernXor, kT2, getG, List.range_succ]

theorem kernXorT2e2 (U : ℕ → Bool) : kernXor kT2 U 2 = U 2 := by
  simp [kernXor, kT2, getG, List.range_succ]

/-- Sign correctness of the Arikan combine functions: if the parent LLR
slice has the signs of the kernel-encoded children bits `U` and the already
decided bits agree with `U`, child `c`'s combined LLR is nonzero with the
sign of `U c`. -/
theorem lamSignA (c : ℕ) (hc : c < 2) (U : ℕ → Bool) (L : ℕ → ℚ) (b : ℕ → Bool)
    (hL : ∀ j, j < 2 → L j ≠ 0 ∧ (L j < 0 ↔ kernXor kArikan U j = true))
    (hb : ∀ j, j < c → b j = U j) :
    lamsArikan c L b ≠ 0 ∧ (lamsArikan c L b < 0 ↔ U c = true) := by
  have h0 := hL 0 (by omega); have h1 := hL 1 (by omega)
  rw [kernXorA0] at h0; rw [kernXorA1] at h1
  interval_cases c
  · have hs := sminSign (L 0) (L 1) (xor (U 0) (U 1)) (U 1) h0.1 h1.1 h0.2 h1.2
    have hx : xor (xor (U 0) (U 1)) (U 1) = U 0 := by
      cases hu0 : U 0 <;> cases hu1 : U 1 <;> rfl
    exact ⟨hs.1, hx ▸ hs.2⟩
  · have hb0 : b 0 = U 0 := hb 0 (by omega)
    have hf := flipSign (L 0) (U 0) (xor (U 0) (U 1)) h0.1 h0.2
    have hx : xor (xor (U 0) (U 1)) (U 0) = U 1 := by
      cases hu0 : U 0 <;> cases hu1 : U 1 <;> rfl
    have ha := addSign (cond (U 0) (-(L 0)) (L 0)) (L 1) (U 1)
      hf.1 h1.1 (hx ▸ hf.2) h1.2
    rw [← hb0] at ha
    exact ha

/-- Sign correctness of the combine functions of kernel `{{1,1,1},{1,0,1},{0,1,1}}`. -/
theorem lamSignT1 (c : ℕ) (hc : c < 3) (U : ℕ → Bool) (L : ℕ → ℚ) (b : ℕ → Bool)
    (hL : ∀ j, j < 3 → L j ≠ 0 ∧ (L j < 0 ↔ kernXor kT1 U j = true))
    (hb : ∀ j, j < c → b j = U j) :
    lamsT1 c L b ≠ 0 ∧ (lamsT1 c L b < 0 ↔ U c = true) := by
  have h0 := hL 0 (by omega); have h1 := hL 1 (by omega); have h2 := hL 2 (by omega)
  rw [kernXorT1e0] at h0; rw [kernXorT1e1] at h1; rw [kernXorT1e2] at h2
  interval_cases c
  · have hs := smin3Sign (L 0) (L 1) (L 2)
      (xor (U 0) (U 1)) (xor (U 0) (U 2)) (xor (xor (U 0) (U 1)) (U 2))
      h0.1 h1.1 h2.1 h0.2 h1.2 h2.2
    have hx : xor (xor (xor (U 0) (U 1)) (xor (U 0) (U 2))) (xor (xor (U 0) (U 1)) (U 2)) = U 0 := by
      cases U 0 <;> cases U 1 <;> cases U 2 <;> rfl
    exact ⟨hs.1, hx ▸ hs.2⟩
  · have hb0 : b 0 = U 0 := hb 0 (by omega)
    have hs := sminSign (L 1) (L 2) (xor (U 0) (U 2)) (xor (xor (U 0) (U 1)) (U 2))
      h1.1 h2.1 h1.2 h2.2
    have hx1 : xor (xor (U 0) (U 2)) (xor (xor (U 0) (U 1)) (U 2)) = U 1 := by
      cases U 0 <;> cases U 1 <;> cases U 2 <;> rfl
    have hf := flipSign (L 0) (U 0) (xor (U 0) (U 1)) h0.1 h0.2
    have hx2 : xor (xor (U 0) (U 1)) (U 0) = U 1 := by
      cases U 0 <;> cases U 1 <;> rfl
    have ha := addSign (cond (U 0) (-(L 0)) (L 0))
      (cond (xor (decide (L 1 < 0)) (decide (L 2 < 0))) (-(min |L 1| |L 2|)) (min |L 1| |L 2|))
      (U 1) hf.1 hs.1 (hx2 ▸ hf.2) (hx1 ▸ hs.2)
    rw [← hb0] at ha
    exact ha
  · have hb0 : b 0 = U 0 := hb 0 (by omega)
    have hb1 : b 1 = U 1 := hb 1 (by omega)
    have hf1 := flipSign (L 1) (U 0) (xor (U 0) (U 2)) h1.1 h1.2
    have hx1 : xor (xor (U 0) (U 2)) (U 0) = U 2 := by
      cases U 0 <;> cases U 2 <;> rfl
    have hf2 := flipSign (L 2) (xor (U 0) (U 1)) (xor (xor (U 0) (U 1)) (U 2)) h2.1 h2.2
    have hx2 : xor (xor (xor (U 0) (U 1)) (U 2)) (xor (U 0) (U 1)) = U 2 := by
      cases U 0 <;> cases U 1 <;> cases U 2 <;> rfl
    have ha := addSign (cond (U 0) (-(L 1)) (L 1)) (cond (xor (U 0) (U 1)) (-(L 2)) (L 2))
      (U 2) hf1.1 hf2.1 (hx1 ▸ hf1.2) (hx2 ▸ hf2.2)
    rw [← hb0, ← hb1] at ha
    exact ha

/-- Sign correctness of the combine functions of kernel `{{1,0,0},{1,1,0},{1,0,1}}`. -/
theorem lamSignT2 (c : ℕ) (hc : c < 3) (U : ℕ → Bool) (L : ℕ → ℚ) (b : ℕ → Bool)
    (hL : ∀ j, j < 3 → L j ≠ 0 ∧ (L j < 0 ↔ kernXor kT2 U j = true))
    (hb : ∀ j, j < c → b j = U j) :
    lamsT2 c L b ≠ 0 ∧ (lamsT2 c L b < 0 ↔ U c = true) := by
  have h0 := hL 0 (by omega); have h1 := hL 1 (by omega); have h2 := hL 2 (by omega)
  rw [kernXorT2e0] at h0; rw [kernXorT2e1] at h1; rw [kernXorT2e2] at h2
  interval_cases c
  · have hs := smin3Sign (L 0) (L 1) (L 2)
      (xor (xor (U 0) (U 1)) (U 2)) (U 1) (U 2)
      h0.1 h1.1 h2.1 h0.2 h1.2 h2.2
    have hx : xor (xor (xor (xor (U 0) (U 1)) (U 2)) (U 1)) (U 2) = U 0 := by
      cases U 0 <;> cases U 1 <;> cases U 2 <;> rfl
    exact ⟨hs.1, hx ▸ hs.2⟩
  · have hb0 : b 0 = U 0 := hb 0 (by omega)
    have hf := flipSign (L 0) (U 0) (xor (xor (U 0) (U 1)) (U 2)) h0.1 h0.2
    have hx1 : xor (xor (xor (U 0) (U 1)) (U 2)) (U 0) = xor (U 1) (U 2) := by
      cases U 0 <;> cases U 1 <;> cases U 2 <;> rfl
    have hs := sminSign (cond (U 0) (-(L 0)) (L 0)) (L 2) (xor (U 1) (U 2)) (U 2)
      hf.1 h2.1 (hx1 ▸ hf.2) h2.2
    have hx2 : xor (xor (U 1) (U 2)) (U 2) = U 1 := by
      cases U 1 <;> cases U 2 <;> rfl
    have ha := addSign
      (cond (xor (decide (cond (U 0) (-(L 0)) (L 0) < 0)) (decide (L 2 < 0)))
        (-(min |cond (U 0) (-(L 0)) (L 0)| |L 2|)) (min |cond (U 0) (-(L 0)) (L 0)| |L 2|))
      (L 1) (U 1) hs.1 h1.1 (hx2 ▸ hs.2) h1.2
    rw [← hb0] at ha
    exact ha
  · have hb0 : b 0 = U 0 := hb 0 (by omega)
    have hb1 : b 1 = U 1 := hb 1 (by omega)
    have hf := flipSign (L 0) (xor (U 0) (U 1)) (xor (xor (U 0) (U 1)) (U 2)) h0.1 h0.2
    have hx : xor (xor (xor (U 0) (U 1)) (U 2)) (xor (U 0) (U 1)) = U 2 := by
      cases U 0 <;> cases U 1 <;> cases U 2 <;> rfl
    have ha := addSign (cond (xor (U 0) (U 1)) (-(L 0)) (L 0)) (L 2) (U 2)
      hf.1 h2.1 (hx ▸ hf.2) h2.2
    rw [← hb0, ← hb1] at ha
    exact ha

/-- Sign correctness of the combine functions, uniformly over the three
recognized kernels. -/
theorem lamSign (t : Fin 3) (c : ℕ) (hc : c < (kerG t).length)
    (U : ℕ → Bool) (L : ℕ → ℚ) (b : ℕ → Bool)
    (hL : ∀ j, j < (kerG t).length → L j ≠ 0 ∧ (L j < 0 ↔ kernXor (kerG t) U j = true))
    (hb : ∀ j, j < c → b j = U j) :
    kerLams t c L b ≠ 0 ∧ (kerLams t c L b < 0 ↔ U c = true) := by
  fin_cases t
  · exact lamSignA c hc U L b hL hb
  · exact lamSignT1 c hc U L b hL hb
  · exact lamSignT2 c hc U L b hL hb

theorem scNodeSucc (G : List (List Bool)) (lams : ℕ → Lam) (d : ℕ)
    (fb : ℕ → Bool) (l : ℕ → ℚ) :
    scNode G lams (d + 1) fb l =
    (reEncode G
      (fun j k => (((scKids lams (G.length ^ d) fb l (scNode G lams d)) G.length).getD j dres).1 k) d,
     fun p => (((scKids lams (G.length ^ d) fb l (scNode G lams d)) G.length).getD
       (p / G.length ^ d) dres).2 (p % G.length ^ d)) := rfl

theorem scKidsSucc (lams : ℕ → Lam) (sub : ℕ) (f : ℕ → Bool) (l : ℕ → ℚ)
    (recur : (ℕ → Bool) → (ℕ → ℚ) → ScRes) (c : ℕ) :
    scKids lams sub f l recur (c + 1) =
    scKids lams sub f l recur c ++
      [recur (fun i => f (c * sub + i))
        (fun i => lams c (fun j => l (j * sub + i))
          (fun j => if j < c then ((scKids lams sub f l recur c).getD j dres).1 i else false))] := rfl

theorem encTreeSucc (G : List (List Bool)) (d : ℕ) (u : ℕ → Bool) (p : ℕ) :
    encTree G (d + 1) u p =
    kernXor G (fun m => encTree G d (fun i => u (m * G.length ^ d + i)) (p % G.length ^ d))
      (p / G.length ^ d) := rfl

/-- The re-encode pass evaluated at an arbitrary in-range position. -/
theorem reEncodeNode (G : List (List Bool)) (sK : ℕ → ℕ → Bool) (d p : ℕ)
    (hp : p < G.length ^ (d + 1)) (hd : 0 < G.length ^ d) :
    reEncode G sK d p =
    kernXor G (fun j => sK j (p % G.length ^ d)) (p / G.length ^ d) := by
  have hi : p / G.length ^ d < G.length := by
    rw [Nat.div_lt_iff_lt_mul hd, Nat.mul_comm]
    rw [pow_succ] at hp
    exact hp
  have hk : p % G.length ^ d < G.length ^ d := Nat.mod_lt p hd
  have hptn : G.length ^ d * (p / G.length ^ d) + p % G.length ^ d = p :=
    Nat.div_add_mod p (G.length ^ d)
  conv_lhs => rw [← hptn]
  exact reEncodeEval G sK d (p / G.length ^ d) (p % G.length ^ d) hi hk

/-- Main invariant of the SC decode under noiseless LLRs: if the frozen
leaves of `u` are zero and the input LLRs are nonzero with the signs of the
encoded codeword of `u`, the decode reproduces both the codeword (partial
sums) and the leaf values. -/
theorem scCorrect (t : Fin 3) (d : ℕ) :
    ∀ (fb u : ℕ → Bool) (l : ℕ → ℚ),
      (∀ i, i < (kerG t).length ^ d → fb i = true → u i = false) →
      (∀ p, p < (kerG t).length ^ d →
        l p ≠ 0 ∧ (l p < 0 ↔ encTree (kerG t) d u p = true)) →
      ∀ p, p < (kerG t).length ^ d →
        (scNode (kerG t) (kerLams t) d fb l).1 p = encTree (kerG t) d u p ∧
        (scNode (kerG t) (kerLams t) d fb l).2 p = u p := by
  have hks : 2 ≤ (kerG t).length := by fin_cases t <;> decide
  induction d with
  | zero =>
      intro fb u l hfu hl p hp
      have hp0 : p = 0 := by simpa using hp
      subst hp0
      have h := hl 0 (by simp)
      have h2 : l 0 < 0 ↔ u 0 = true := h.2
      have goal : (!fb 0 && hLLR (l 0)) = u 0 := by
        cases hfb : fb 0
        · cases hu : u 0
          · simp [hLLR, hu ▸ h2]
          · simp [hLLR, hu ▸ h2]
        · simp [hfu 0 (by simp) hfb]
      exact ⟨goal, goal⟩
  | succ d ih =>
      intro fb u l hfu hl p hp
      have hsubpos : 0 < (kerG t).length ^ d := Nat.pos_pow_of_pos d (by omega)
      set ks := (kerG t).length with hksdef
      set sub := ks ^ d with hsubdef
      have hpow : ks ^ (d + 1) = sub * ks := by rw [hsubdef, pow_succ]
      -- correctness of the first `c` children, by induction on `c`
      have kids : ∀ c, c ≤ ks →
          ((scKids (kerLams t) sub fb l (scNode (kerG t) (kerLams t) d) c).length = c) ∧
          (∀ j, j < c → ∀ k, k < sub →
            (((scKids (kerLams t) sub fb l (scNode (kerG t) (kerLams t) d) c).getD j dres).1 k =
              encTree (kerG t) d (fun i => u (j * sub + i)) k) ∧
            (((scKids (kerLams t) sub fb l (scNode (kerG t) (kerLams t) d) c).getD j dres).2 k =
              u (j * sub + k))) := by
        intro c
        induction c with
        | zero => intro _; exact ⟨rfl, fun j hj => by omega⟩
        | succ c ihc =>
            intro hc1
            have hcks : c < ks := by omega
            obtain ⟨hlen, hcorr⟩ := ihc (by omega)
            -- bound for positions inside child `j`
            have hbound : ∀ j i2, j < ks → i2 < sub → j * sub + i2 < ks ^ (d + 1) := by
              intro j i2 hj hi2
              rw [hpow]
              calc j * sub + i2 < j * sub + sub := by omega
                _ = (j + 1) * sub := by ring
                _ ≤ ks * sub := Nat.mul_le_mul_right sub (by omega)
                _ = sub * ks := by ring
            -- index arithmetic
            have hdivmod : ∀ j i2, i2 < sub → (j * sub + i2) / sub = j ∧ (j * sub + i2) % sub = i2 := by
              intro j i2 hi2
              have he : j * sub + i2 = sub * j + i2 := by ring
              constructor
              · rw [he, Nat.mul_add_div hsubpos, Nat.div_eq_of_lt hi2, Nat.add_zero]
              · rw [he, Nat.mul_add_mod, Nat.mod_eq_of_lt hi2]
            -- the LLRs fed to child `c` are noiseless for its sub-codeword
            have hchild : ∀ i, i < sub →
                (kerLams t c (fun j => l (j * sub + i))
                  (fun j => if j < c then
                    ((scKids (kerLams t) sub fb l (scNode (kerG t) (kerLams t) d) c).getD j dres).1 i
                    else false) ≠ 0) ∧
                (kerLams t c (fun j => l (j * sub + i))
                  (fun j => if j < c then
                    ((scKids (kerLams t) sub fb l (scNode (kerG t) (kerLams t) d) c).getD j dres).1 i
                    else false) < 0 ↔
                  encTree (kerG t) d (fun i2 => u (c * sub + i2)) i = true) := by
              intro i hi
              exact lamSign t c hcks
                (fun m => encTree (kerG t) d (fun i2 => u (m * sub + i2)) i)
                (fun j => l (j * sub + i)) _
                (by
                  intro j hj
                  have hm := hl (j * sub + i) (hbound j i hj hi)
                  refine ⟨hm.1, ?_⟩
                  rw [hm.2]
                  have henc : encTree (kerG t) (d + 1) u (j * sub + i) =
                      kernXor (kerG t)
                        (fun m => encTree (kerG t) d (fun i2 => u (m * sub + i2)) i) j := by
                    rw [encTreeSucc]
                    rw [(hdivmod j i hi).1, (hdivmod j i hi).2]
                  rw [henc])
                (by
                  intro j hj
                  rw [if_pos hj]
                  exact (hcorr j hj i hi).1)
            -- child `c` decodes correctly by the depth induction hypothesis
            have hcres := ih (fun i => fb (c * sub + i)) (fun i => u (c * sub + i))
              (fun i => kerLams t c (fun j => l (j * sub + i))
                (fun j => if j < c then
                  ((scKids (kerLams t) sub fb l (scNode (kerG t) (kerLams t) d) c).getD j dres).1 i
                  else false))
              (fun i hi hfbi => hfu (c * sub + i) (hbound c i hcks hi) hfbi)
              (fun i hi => hchild i hi)
            constructor
            · rw [scKidsSucc, List.length_append, hlen]; rfl
            · intro j hj k hk
              rcases Nat.lt_succ_iff_lt_or_eq.mp hj with hjc | hjc
              · rw [scKidsSucc]
                have hget : (scKids (kerLams t) sub fb l (scNode (kerG t) (kerLams t) d) c ++
                    [scNode (kerG t) (kerLams t) d (fun i => fb (c * sub + i))
                      (fun i => kerLams t c (fun j2 => l (j2 * sub + i))
                        (fun j2 => if j2 < c then
                          ((scKids (kerLams t) sub fb l (scNode (kerG t) (kerLams t) d) c).getD j2 dres).1 i
                          else false))]).getD j dres =
                    (scKids (kerLams t) sub fb l (scNode (kerG t) (kerLams t) d) c).getD j dres := by
                  unfold List.getD
                  rw [List.get?_append (by omega)]
                exact hget ▸ hcorr j hjc k hk
              · subst hjc
                rw [scKidsSucc]
                have hget : (scKids (kerLams t) sub fb l (scNode (kerG t) (kerLams t) d) j ++
                    [scNode (kerG t) (kerLams t) d (fun i => fb (j * sub + i))
                      (fun i => kerLams t j (fun j2 => l (j2 * sub + i))
                        (fun j2 => if j2 < j then
                          ((scKids (kerLams t) sub fb l (scNode (kerG t) (kerLams t) d) j).getD j2 dres).1 i
                          else false))]).getD j dres =
                    scNode (kerG t) (kerLams t) d (fun i => fb (j * sub + i))
                      (fun i => kerLams t j (fun j2 => l (j2 * sub + i))
                        (fun j2 => if j2 < j then
                          ((scKids (kerLams t) sub fb l (scNode (kerG t) (kerLams t) d) j).getD j2 dres).1 i
                          else false)) := by
                  unfold List.getD
                  rw [List.get?_append_right (by omega)]
                  rw [hlen]
                  simp
                rw [hget]
                exact hcres k hk
      -- node-level conclusion
      obtain ⟨hlenks, hcorrks⟩ := kids ks le_rfl
      have hk2 : p % sub < sub := Nat.mod_lt p hsubpos
      refine ⟨?_, ?_⟩
      · show reEncode (kerG t)
          (fun j k => ((scKids (kerLams t) sub fb l (scNode (kerG t) (kerLams t) d) ks).getD j dres).1 k)
          d p = encTree (kerG t) (d + 1) u p
        rw [reEncodeNode (kerG t) _ d p hp hsubpos]
        rw [kernXorCongr (kerG t) _
          (fun j => encTree (kerG t) d (fun i2 => u (j * sub + i2)) (p % sub))
          (fun j hj => (hcorrks j hj (p % sub) hk2).1) (p / (kerG t).length ^ d)]
        exact (encTreeSucc (kerG t) d u p).symm
      · show ((scKids (kerLams t) sub fb l (scNode (kerG t) (kerLams t) d) ks).getD
            (p / sub) dres).2 (p % sub) = u p
        have hi2 : p / sub < ks := by
          rw [Nat.div_lt_iff_lt_mul hsubpos, Nat.mul_comm]
          rw [hpow] at hp
          exact hp
        rw [(hcorrks (p / sub) hi2 (p % sub) hk2).2]
        have hptn : p / sub * sub + p % sub = p := by
          rw [Nat.mul_comm]
          exact Nat.div_add_mod p sub
        rw [hptn]

theorem expandFrozen (f : List Bool) (v : List Bool) :
    ∀ i, i < f.length → f.getD i true = true → expandF f v i = false := by
  induction f generalizing v with
  | nil => intro i hi; simp at hi
  | cons b f ihf =>
      intro i hi hfi
      cases b
      · cases i with
        | zero => simp at hfi
        | succ i =>
            show expandF (false :: f) v (i + 1) = false
            simp only [expandF]
            exact ihf v.tail i (by simpa using hi) (by simpa using hfi)
      · cases i with
        | zero => rfl
        | succ i =>
            show expandF (true :: f) v (i + 1) = false
            simp only [expandF]
            exact ihf v i (by simpa using hi) (by simpa using hfi)

theorem storeInfoCongr (f : List Bool) :
    ∀ (dec dec2 : ℕ → Bool), (∀ i, i < f.length → dec i = dec2 i) →
      storeInfoF f dec = storeInfoF f dec2 := by
  induction f with
  | nil => intro dec dec2 _; rfl
  | cons b f ihf =>
      intro dec dec2 h
      cases b
      · show dec 0 :: storeInfoF f (fun i => dec (i + 1)) =
          dec2 0 :: storeInfoF f (fun i => dec2 (i + 1))
        rw [h 0 (by simp), ihf (fun i => dec (i + 1)) (fun i => dec2 (i + 1))
          (fun i hi => h (i + 1) (by simpa using hi))]
      · show storeInfoF f (fun i => dec (i + 1)) = storeInfoF f (fun i => dec2 (i + 1))
        exact ihf _ _ (fun i hi => h (i + 1) (by simpa using hi))

theorem storeExpand (f : List Bool) :
    ∀ (v : List Bool), v.length = (f.filter (fun b => !b)).length →
      storeInfoF f (expandF f v) = v := by
  induction f with
  | nil =>
      intro v hv
      simp at hv
      cases v
      · rfl
      · simp at hv
  | cons b f ihf =>
      intro v hv
      cases b
      · show expandF (false :: f) v 0 :: storeInfoF f (fun i => expandF (false :: f) v (i + 1)) = v
        have h1 : expandF (false :: f) v 0 = v.headD false := rfl
        have h2 : (fun i => expandF (false :: f) v (i + 1)) = expandF f v.tail := by
          funext i; rfl
        rw [h1, h2]
        have hvlen : 0 < v.length := by
          simp only [List.filter_cons] at hv
          simp at hv
          omega
        cases v with
        | nil => simp at hvlen
        | cons vh vt =>
            have := ihf vt (by
              simp only [List.filter_cons] at hv
              simpa using hv)
            simp [this]
      · show storeInfoF f (fun i => expandF (true :: f) v (i + 1)) = v
        have h2 : (fun i => expandF (true :: f) v (i + 1)) = expandF f v := by
          funext i; rfl
        rw [h2]
        exact ihf v (by simpa [List.filter_cons] using hv)

/-- C1: for every recognized kernel and every tree depth (hence in
particular N = 4, 8, 16 for the size-2 kernel), encoding an arbitrary
information vector `v` of length K = number of non-frozen lanes via the
generalized kernel transform and decoding the resulting codeword under zero
noise (arbitrary nonzero LLRs whose signs match the true codeword bits:
positive for bit 0, negative for bit 1 — in particular LLRs of very large
magnitude) with the SC recursive decode followed by the information store
reproduces the original K bits exactly. -/
theorem noiselessRoundTrip (t : Fin 3) (d : ℕ) (f v : List Bool) (l : ℕ → ℚ)
    (hf : f.length = (kerG t).length ^ d)
    (hv : v.length = (f.filter (fun b => !b)).length)
    (hl : ∀ p, p < (kerG t).length ^ d →
      l p ≠ 0 ∧ (l p < 0 ↔ encTree (kerG t) d (expandF f v) p = true)) :
    storeInfoF f (scNode (kerG t) (kerLams t) d (fun i => f.getD i true) l).2 = v := by
  have hc := scCorrect t d (fun i => f.getD i true) (expandF f v) l
    (fun i hi hfi => expandFrozen f v i (by rw [hf]; exact hi) hfi) hl
  rw [storeInfoCongr f _ (expandF f v)
    (fun i hi => (hc i (by rw [← hf]; exact hi)).2)]
  exact storeExpand f v hv

/-- Witness for C1: the Arikan kernel at N = 4, frozen lanes 0 and 1,
information bits `[1,0]`, all-correct-sign unit LLRs. -/
theorem noiselessRoundTripWitness :
    storeInfoF [true, true, false, false]
      (scNode (kerG 0) (kerLams 0) 2 (fun i => [true, true, false, false].getD i true)
        (fun p => if encTree (kerG 0) 2 (expandF [true, true, false, false] [true, false]) p
          then -1 else 1)).2 = [true, false] :=
  noiselessRoundTrip 0 2 [true, true, false, false] [true, false] _
    (by decide) (by decide) (by decide)

/-- C4: for every internal node (depth d+1) of the decode tree, after its
children have been recursively decoded, the node's partial-sum vector as
computed by the re-encode pass satisfies, at output position `i` of kernel
repetition `k`: the stored bit is the XOR of the children's partial-sum bits
`s_j k` selected by the kernel entries `G[j][i]`, independently for each
repetition `k` across the node's width. -/
theorem reencodePartialSums (t : Fin 3) (d : ℕ) (fb : ℕ → Bool) (l : ℕ → ℚ)
    (i k : ℕ) (hi : i < (kerG t).length) (hk : k < (kerG t).length ^ d) :
    (scNode (kerG t) (kerLams t) (d + 1) fb l).1 ((kerG t).length ^ d * i + k) =
    kernXor (kerG t)
      (fun j => (((scKids (kerLams t) ((kerG t).length ^ d) fb l
        (scNode (kerG t) (kerLams t) d)) (kerG t).length).getD j dres).1 k) i := by
  rw [scNodeSucc]
  exact reEncodeEval (kerG t)
    (fun j k2 => (((scKids (kerLams t) ((kerG t).length ^ d) fb l
      (scNode (kerG t) (kerLams t) d)) (kerG t).length).getD j dres).1 k2) d i k hi hk

/-- Witness for C4: the Arikan kernel, a two-leaf node, output position 1. -/
theorem reencodePartialSumsWitness :
    (1 < (kerG 0).length ∧ 0 < (kerG 0).length ^ 0) ∧
    (scNode (kerG 0) (kerLams 0) 1 (fun _ => false) (fun _ => 1)).1
        ((kerG 0).length ^ 0 * 1 + 0) =
      kernXor (kerG 0)
        (fun j => (((scKids (kerLams 0) ((kerG 0).length ^ 0) (fun _ => false) (fun _ => 1)
          (scNode (kerG 0) (kerLams 0) 0)) (kerG 0).length).getD j dres).1 0) 1 :=
  ⟨⟨by decide, by decide⟩,
    reencodePartialSums 0 0 (fun _ => false) (fun _ => 1) 1 0 (by decide) (by decide)⟩

/-- C5: for the size-2 (Arikan) kernel and every pair of input LLRs, the
child-0 combine function returns `min (|LLR0|, |LLR1|)` carrying the sign
`signbit LLR0 XOR signbit LLR1` (in particular its magnitude is exactly the
minimum, and for nonzero inputs it is negative precisely when the sign bits
differ), and the child-1 combine function returns
`(LLR0 if bit0 == 0 else -LLR0) + LLR1` where `bit0` is the already decided
hard bit of child 0. -/
theorem arikanCombineFunctions (L : ℕ → ℚ) (b : ℕ → Bool) :
    lamsArikan 0 L b =
      cond (xor (decide (L 0 < 0)) (decide (L 1 < 0)))
        (-(min |L 0| |L 1|)) (min |L 0| |L 1|) ∧
    |lamsArikan 0 L b| = min |L 0| |L 1| ∧
    (L 0 ≠ 0 → L 1 ≠ 0 →
      (lamsArikan 0 L b < 0 ↔ xor (decide (L 0 < 0)) (decide (L 1 < 0)) = true)) ∧
    lamsArikan 1 L b = cond (b 0) (-(L 0)) (L 0) + L 1 := by
  have hm : 0 ≤ min |L 0| |L 1| := le_min (abs_nonneg _) (abs_nonneg _)
  refine ⟨rfl, ?_, ?_, rfl⟩
  · show |cond (xor (decide (L 0 < 0)) (decide (L 1 < 0)))
      (-(min |L 0| |L 1|)) (min |L 0| |L 1|)| = min |L 0| |L 1|
    cases xor (decide (L 0 < 0)) (decide (L 1 < 0))
    · simpa using abs_of_nonneg hm
    · simpa using abs_of_nonneg hm
  · intro h0 h1
    exact (sminSign (L 0) (L 1) (decide (L 0 < 0)) (decide (L 1 < 0)) h0 h1
      decide_eq_true_iff.symm decide_eq_true_iff.symm).2

/-- Witness for C5: concrete LLRs `(2, -3)` with both bits decided `0`. -/
theorem arikanCombineFunctionsWitness :
    lamsArikan 0 (fun j => if j = 0 then 2 else -3) (fun _ => false) < 0 ↔
      xor (decide ((2:ℚ) < 0)) (decide ((-3:ℚ) < 0)) = true :=
  (arikanCombineFunctions (fun j => if j = 0 then 2 else -3) (fun _ => false)).2.2.1
    (by norm_num) (by norm_num)

/-! ### The frame-batched decode contract (`Decoder_i::hard_decode`) -/

/-- Decoder shape parameters (`K`, `N`, `n_frames`, `simd_inter_frame_level`). -/
structure DecPar where
  K : ℕ
  N : ℕ
  n_frames : ℕ
  simd : ℕ
deriving DecidableEq, Repr

/-- Number of decode waves: `ceil(n_frames / simd)` (constructor line 67). -/
def nDecWaves (c : DecPar) : ℕ := (c.n_frames + c.simd - 1) / c.simd

/-- Frames left over in the last wave: `n_frames % simd` (line 68). -/
def nRest (c : DecPar) : ℕ := c.n_frames % c.simd

/-- Errors raised by `hard_decode`; `lenY`, `lenV`, `loadLen` and `storeLen`
are `std::length_error`s, `shape` is the `std::runtime_error` raised when
the output buffer matches neither expected shape. -/
inductive DecErr where
  | lenY
  | lenV
  | loadLen
  | storeLen
  | shape
deriving DecidableEq, Repr

/-- Whether a `DecErr` models a C++ `std::length_error`. -/
def isLengthErr : DecErr → Bool
  | .lenY => true
  | .lenV => true
  | .loadLen => true
  | .storeLen => true
  | .shape => false

/-- Overwrite `dst` starting at `off` with the elements of `src`. -/
def writeAt {α : Type} (dst : List α) (off : ℕ) (src : List α) : List α :=
  dst.take off ++ src ++ dst.drop (off + src.length)

/-- Number of frames processed by wave `w` (lines 130-132): the remainder
count on the last wave if a remainder exists, else the full SIMD width. -/
def waveFrames (c : DecPar) (w : ℕ) : ℕ :=
  if w = nDecWaves c - 1 ∧ nRest c ≠ 0 then nRest c else c.simd

/-- The `__hard_decode` body (lines 248-278) around an abstract single-wave
decode primitive `g` (the composite `_load`/`_hard_decode`/`_store` effect:
`g Yw` is what the concrete decoder's store writes at the front of the
output buffer).  `load` models the `load` length check (lines 280-287),
`store`/`store_fast` the checked store (lines 289-296) and the unchecked
fast store (lines 298-301, whose default `_store_fast` falls back to
`_store` and whose default `_unpack` is a no-op). -/
def innerHD (c : DecPar) (g : List ℚ → List Bool) (Yw : List ℚ) (V : List Bool)
    (load store store_fast : Bool) : Except DecErr (List Bool) :=
  if load ∧ c.N * c.simd > Yw.length then .error .loadLen
  else
    let out := g Yw
    if store then
      if store_fast then .ok (writeAt V 0 out)
      else if c.K * c.simd > V.length then .error .storeLen
      else .ok (writeAt V 0 out)
    else .ok V

/-- The staged input buffer `Y_N[w]` of wave `w` after the optional load
copy (lines 134-140): a zero-initialized buffer of `simd * N` reals whose
front holds the wave's `n_frames_per_wave * N` input values when `load` is
enabled. -/
def stagedY (c : DecPar) (Y : List ℚ) (load : Bool) (w : ℕ) : List ℚ :=
  if load then
    writeAt (List.replicate (c.simd * c.N) (0 : ℚ)) 0
      ((Y.drop (w * c.simd * c.N)).take (waveFrames c w * c.N))
  else List.replicate (c.simd * c.N) (0 : ℚ)

/-- The per-wave loop of the general path of `hard_decode` (lines 127-167):
for each wave, stage the wave's slice of `Y` into a zero-initialized buffer,
run `__hard_decode` into a staging output buffer, and copy results out at
the `K`-scaled offset if `len V = K * n_frames`, at the `N`-scaled offset if
`len V = N * n_frames`, and fail with the shape error otherwise. -/
def waveLoop (c : DecPar) (g : List ℚ → List Bool) (Y : List ℚ)
    (load store store_fast : Bool) : List ℕ → List Bool → Except DecErr (List Bool)
  | [], V => .ok V
  | w :: ws, V =>
      let nfpw := waveFrames c w
      match innerHD c g (stagedY c Y load w) (List.replicate (c.simd * c.N) false)
          load store store_fast with
      | .error e => .error e
      | .ok Vw =>
          if store then
            if c.K * c.n_frames = V.length then
              waveLoop c g Y load store store_fast ws
                (writeAt V (w * c.simd * c.K) (Vw.take (nfpw * c.K)))
            else if c.N * c.n_frames = V.length then
              waveLoop c g Y load store store_fast ws
                (writeAt V (w * c.simd * c.N) (Vw.take (nfpw * c.N)))
            else .error .shape
          else waveLoop c g Y load store store_fast ws V

/-- `Decoder_i::hard_decode` (lines 101-169): entry length checks, then the
fast path (one wave, no remainder) decoding directly from/to the caller's
buffers, else the general per-wave path. -/
def hardDecode (c : DecPar) (g : List ℚ → List Bool) (Y : List ℚ) (V : List Bool)
    (load store store_fast : Bool) : Except DecErr (List Bool) :=
  if c.N * c.n_frames ≠ Y.length then .error .lenY
  else if c.N * c.n_frames < V.length then .error .lenV
  else if nDecWaves c = 1 ∧ nRest c = 0 then
    innerHD c g Y V load store store_fast
  else
    waveLoop c g Y load store store_fast (List.range (nDecWaves c)) V

/-- Modelled from the spec: "running the single-frame decode path n separate
times on the same per-frame inputs" — apply the per-frame decode `f` to each
frame slice of `Y` and concatenate the results. -/
def singleFrameRuns (f : List ℚ → List Bool) (N n : ℕ) (Y : List ℚ) : List Bool :=
  List.join ((List.range n).map (fun j => f ((Y.drop (j * N)).take N)))

/-- A wave primitive that decodes the `simd` frames of a wave buffer
independently with the per-frame decode `f` (the premise under which the
wave-batching equivalence is stated). -/
def gOf (simd N : ℕ) (f : List ℚ → List Bool) (y : List ℚ) : List Bool :=
  List.join ((List.range simd).map (fun t => f ((y.drop (t * N)).take N)))

theorem writeAtLength {α : Type} (dst : List α) (off : ℕ) (src : List α)
    (h : off + src.length ≤ dst.length) : (writeAt dst off src).length = dst.length := by
  simp only [writeAt, List.length_append, List.length_take, List.length_drop]
  omega

theorem writeAtZero {α : Type} (dst src : List α) :
    writeAt dst 0 src = src ++ dst.drop src.length := by
  simp [writeAt]

theorem writeAtTakeExact {α : Type} (dst : List α) (off : ℕ) (src : List α)
    (h : off ≤ dst.length) :
    (writeAt dst off src).take (off + src.length) = dst.take off ++ src := by
  show (dst.take off ++ src ++ dst.drop (off + src.length)).take (off + src.length) =
    dst.take off ++ src
  rw [List.append_assoc, List.take_append_eq_append_take]
  have h1 : (dst.take off).length = off := by
    rw [List.length_take]
    omega
  rw [h1]
  have h2 : off + src.length - off = src.length := by omega
  rw [h2, List.take_append_eq_append_take]
  simp

theorem writeAtFull {α : Type} (dst : List α) (off : ℕ) (src : List α)
    (hend : off + src.length = dst.length) :
    writeAt dst off src = dst.take off ++ src := by
  show dst.take off ++ src ++ dst.drop (off + src.length) = dst.take off ++ src
  rw [hend, List.drop_length, List.append_nil]

/-- Decomposition of the frame count into waves: with `0 < simd` and
`0 < n_frames` there is at least one wave, the first `n_dec_waves - 1` waves
are full and the last wave holds `n_inter_frame_rest` frames (or a full wave
when the rest is zero). -/
theorem wavesDecomp (c : DecPar) (hs : 0 < c.simd) (hn : 0 < c.n_frames) :
    1 ≤ nDecWaves c ∧ nRest c < c.simd ∧
    c.n_frames = (nDecWaves c - 1) * c.simd + (if nRest c = 0 then c.simd else nRest c) := by
  obtain ⟨q, hq1⟩ : ∃ q, c.n_frames / c.simd = q := ⟨_, rfl⟩
  obtain ⟨r, hr1⟩ : ∃ r, c.n_frames % c.simd = r := ⟨_, rfl⟩
  have hq : c.simd * q + r = c.n_frames := by
    rw [← hq1, ← hr1]; exact Nat.div_add_mod c.n_frames c.simd
  have hr : r < c.simd := hr1 ▸ Nat.mod_lt _ hs
  have hrr : nRest c = r := hr1
  by_cases hr0 : r = 0
  · have hq1' : 1 ≤ q := by
      rcases Nat.eq_zero_or_pos q with h | h
      · rw [h] at hq; omega
      · exact h
    have hW : nDecWaves c = q := by
      show (c.n_frames + c.simd - 1) / c.simd = q
      have he : c.n_frames + c.simd - 1 = c.simd * q + (c.simd - 1) := by omega
      rw [he, Nat.mul_add_div hs, Nat.div_eq_of_lt (by omega)]
      omega
    rw [hW, hrr, if_pos hr0]
    have h2 : (q - 1) * c.simd + c.simd = q * c.simd := by
      have h1 : q - 1 + 1 = q := by omega
      calc (q - 1) * c.simd + c.simd = (q - 1 + 1) * c.simd := by ring
        _ = q * c.simd := by rw [h1]
    have h3 : q * c.simd = c.simd * q := Nat.mul_comm _ _
    omega
  · have hW : nDecWaves c = q + 1 := by
      show (c.n_frames + c.simd - 1) / c.simd = q + 1
      have he : c.n_frames + c.simd - 1 = c.simd * q + (r + c.simd - 1) := by omega
      rw [he, Nat.mul_add_div hs]
      have hd : (r + c.simd - 1) / c.simd = 1 := by
        have he2 : r + c.simd - 1 = (r - 1) + c.simd := by omega
        rw [he2, Nat.add_div_right _ hs, Nat.div_eq_of_lt (by omega)]
      rw [hd]
    rw [hW, hrr, if_neg hr0]
    have h1 : q + 1 - 1 = q := by omega
    rw [h1]
    have h2 : q * c.simd = c.simd * q := Nat.mul_comm _ _
    omega

theorem waveFramesLe (c : DecPar) (hs : 0 < c.simd) (w : ℕ) : waveFrames c w ≤ c.simd := by
  unfold waveFrames
  split
  · exact le_of_lt (Nat.mod_lt _ hs)
  · exact le_refl _

theorem stagedYLength (c : DecPar) (Y : List ℚ) (load : Bool) (w : ℕ)
    (hs : 0 < c.simd) : (stagedY c Y load w).length = c.simd * c.N := by
  unfold stagedY
  cases load
  · simp
  · rw [if_pos rfl, writeAtZero, List.length_append, List.length_drop,
      List.length_replicate, List.length_take]
    have h1 : waveFrames c w * c.N ≤ c.simd * c.N :=
      Nat.mul_le_mul_right _ (waveFramesLe c hs w)
    omega

/-- Inside the general-path loop, `__hard_decode` over the staging buffers
always succeeds (with `store` on and `store_fast` off) and writes the wave
primitive's output at the front of the staging output buffer. -/
theorem innerLoopOk (c : DecPar) (g : List ℚ → List Bool) (load : Bool)
    (hKN : c.K ≤ c.N) (Yw : List ℚ) (hYw : Yw.length = c.simd * c.N) :
    innerHD c g Yw (List.replicate (c.simd * c.N) false) load true false =
    .ok (writeAt (List.replicate (c.simd * c.N) false) 0 (g Yw)) := by
  unfold innerHD
  have hcond : ¬(load = true ∧ c.N * c.simd > Yw.length) := by
    rintro ⟨_, hgt⟩
    rw [hYw, Nat.mul_comm] at hgt
    omega
  rw [if_neg hcond]
  have hstore : ¬(c.K * c.simd > (List.replicate (c.simd * c.N) false).length) := by
    simp only [List.length_replicate]
    have h1 : c.K * c.simd ≤ c.N * c.simd := Nat.mul_le_mul_right _ hKN
    rw [Nat.mul_comm c.simd c.N]
    omega
  simp only [if_pos, if_neg hstore]
  rfl

/-- Per-wave frame accounting: every wave fits inside the frame count, the
last wave ends exactly at `n_frames`, and all earlier waves are full. -/
theorem waveKey (c : DecPar) (hs : 0 < c.simd) (hn : 0 < c.n_frames) :
    ∀ w, w < nDecWaves c →
      w * c.simd + waveFrames c w ≤ c.n_frames ∧
      (w = nDecWaves c - 1 → w * c.simd + waveFrames c w = c.n_frames) ∧
      (w < nDecWaves c - 1 → waveFrames c w = c.simd) := by
  obtain ⟨hW1, hRlt, hdecomp⟩ := wavesDecomp c hs hn
  intro w hw
  unfold waveFrames
  by_cases hlast : w = nDecWaves c - 1 ∧ nRest c ≠ 0
  · rw [if_pos hlast]
    obtain ⟨hw1, hr0⟩ := hlast
    rw [if_neg hr0] at hdecomp
    subst hw1
    exact ⟨le_of_eq hdecomp.symm, fun _ => hdecomp.symm, fun h => by omega⟩
  · rw [if_neg hlast]
    by_cases hr0 : nRest c = 0
    · rw [if_pos hr0] at hdecomp
      have hle : w ≤ nDecWaves c - 1 := by omega
      have h1 : w * c.simd ≤ (nDecWaves c - 1) * c.simd := Nat.mul_le_mul_right _ hle
      exact ⟨by omega, fun hweq => by rw [hweq]; omega, fun _ => rfl⟩
    · have hwne : w ≠ nDecWaves c - 1 := by
        intro hweq
        exact hlast ⟨hweq, hr0⟩
      have hwlt : w < nDecWaves c - 1 := by omega
      rw [if_neg hr0] at hdecomp
      have h1 : (w + 1) * c.simd ≤ (nDecWaves c - 1) * c.simd :=
        Nat.mul_le_mul_right _ (by omega)
      have h2 : (w + 1) * c.simd = w * c.simd + c.simd := by ring
      exact ⟨by omega, fun hweq => absurd hweq hwne, fun _ => rfl⟩

theorem writeAtZeroTake {α : Type} (dst src : List α) (n : ℕ) (h : n ≤ src.length) :
    (writeAt dst 0 src).take n = src.take n := by
  rw [writeAtZero, List.take_append_of_le_length h]

/-- One iteration of the general-path loop (store on, fast store off): the
wave's results are copied out at the `s`-scaled offset, where `s` is the
stride selected by the output length test. -/
theorem waveLoopStep (c : DecPar) (g : List ℚ → List Bool) (Y : List ℚ) (load : Bool)
    (s : ℕ) (hs : 0 < c.simd) (hKN : c.K ≤ c.N)
    (hsel : s = c.K ∨ (s = c.N ∧ c.K * c.n_frames ≠ c.N * c.n_frames))
    (w : ℕ) (ws : List ℕ) (V : List Bool) (hV : V.length = s * c.n_frames) :
    waveLoop c g Y load true false (w :: ws) V =
    waveLoop c g Y load true false ws
      (writeAt V (w * c.simd * s)
        ((writeAt (List.replicate (c.simd * c.N) false) 0
          (g (stagedY c Y load w))).take (waveFrames c w * s))) := by
  show (match innerHD c g (stagedY c Y load w) (List.replicate (c.simd * c.N) false)
      load true false with
    | .error e => Except.error e
    | .ok Vw =>
        if c.K * c.n_frames = V.length then
          waveLoop c g Y load true false ws
            (writeAt V (w * c.simd * c.K) (Vw.take (waveFrames c w * c.K)))
        else if c.N * c.n_frames = V.length then
          waveLoop c g Y load true false ws
            (writeAt V (w * c.simd * c.N) (Vw.take (waveFrames c w * c.N)))
        else Except.error DecErr.shape) = _
  rw [innerLoopOk c g load hKN _ (stagedYLength c Y load w hs)]
  show (if c.K * c.n_frames = V.length then _ else _) = _
  rcases hsel with hsK | ⟨hsN, hne⟩
  · subst hsK
    rw [if_pos hV.symm]
  · subst hsN
    rw [if_neg (fun h => hne (h.trans hV)), if_pos hV.symm]

/-- The general-path loop, run from wave `w0` over the remaining waves,
concatenates each wave's first `n_frames_per_wave * s` results at the
`s`-scaled offsets, exactly filling the output buffer. -/
theorem waveLoopRun (c : DecPar) (g : List ℚ → List Bool) (Y : List ℚ) (load : Bool)
    (s : ℕ) (hs : 0 < c.simd) (hn : 0 < c.n_frames) (hKN : c.K ≤ c.N)
    (hg : ∀ y, c.simd * s ≤ (g y).length)
    (hsel : s = c.K ∨ (s = c.N ∧ c.K * c.n_frames ≠ c.N * c.n_frames)) :
    ∀ (cnt w0 : ℕ) (V : List Bool), w0 + cnt = nDecWaves c → V.length = s * c.n_frames →
      waveLoop c g Y load true false (List.range' w0 cnt) V =
      .ok (V.take (w0 * c.simd * s) ++
        List.flatten ((List.range' w0 cnt).map (fun w =>
          (g (stagedY c Y load w)).take (waveFrames c w * s)))) := by
  obtain ⟨hW1, hRlt, hdecomp⟩ := wavesDecomp c hs hn
  have hkey := waveKey c hs hn
  intro cnt
  induction cnt with
  | zero =>
      intro w0 V hw0 hV
      show Except.ok V = _
      simp only [List.range', List.map_nil, List.flatten_nil, List.append_nil]
      have hnfW : c.n_frames ≤ nDecWaves c * c.simd := by
        have h1 : (nDecWaves c - 1) * c.simd + c.simd = nDecWaves c * c.simd := by
          have h0 : nDecWaves c - 1 + 1 = nDecWaves c := by omega
          calc (nDecWaves c - 1) * c.simd + c.simd
              = (nDecWaves c - 1 + 1) * c.simd := by ring
            _ = nDecWaves c * c.simd := by rw [h0]
        by_cases hr : nRest c = 0
        · rw [if_pos hr] at hdecomp; omega
        · rw [if_neg hr] at hdecomp; omega
      have hlen : V.length ≤ w0 * c.simd * s := by
        rw [hV]
        have h2 : s * c.n_frames ≤ s * (nDecWaves c * c.simd) :=
          Nat.mul_le_mul_left _ hnfW
        have h3 : s * (nDecWaves c * c.simd) = nDecWaves c * c.simd * s := by ring
        have h4 : w0 = nDecWaves c := by omega
        rw [h4]
        omega
      rw [List.take_of_length_le hlen]
  | succ cnt ihc =>
      intro w0 V hw0 hV
      have hw0W : w0 < nDecWaves c := by omega
      obtain ⟨hfit, hlastEq, hfullLt⟩ := hkey w0 hw0W
      rw [List.range'_succ w0 cnt 1]
      rw [waveLoopStep c g Y load s hs hKN hsel w0 _ V hV]
      have hnfpw : waveFrames c w0 * s ≤ (g (stagedY c Y load w0)).length := by
        have h1 : waveFrames c w0 * s ≤ c.simd * s :=
          Nat.mul_le_mul_right _ (waveFramesLe c hs w0)
        exact le_trans h1 (hg _)
      have hpiece : (writeAt (List.replicate (c.simd * c.N) false) 0
          (g (stagedY c Y load w0))).take (waveFrames c w0 * s) =
          (g (stagedY c Y load w0)).take (waveFrames c w0 * s) :=
        writeAtZeroTake _ _ _ hnfpw
      rw [hpiece]
      have hpiecelen : ((g (stagedY c Y load w0)).take (waveFrames c w0 * s)).length =
          waveFrames c w0 * s := by
        rw [List.length_take]
        omega
      have hofffit : w0 * c.simd * s + waveFrames c w0 * s ≤ V.length := by
        rw [hV]
        have h1 : (w0 * c.simd + waveFrames c w0) * s ≤ c.n_frames * s :=
          Nat.mul_le_mul_right _ hfit
        have h2 : (w0 * c.simd + waveFrames c w0) * s = w0 * c.simd * s + waveFrames c w0 * s := by
          ring
        have h3 : c.n_frames * s = s * c.n_frames := by ring
        omega
      have hVlen2 : (writeAt V (w0 * c.simd * s)
          ((g (stagedY c Y load w0)).take (waveFrames c w0 * s))).length =
          s * c.n_frames := by
        rw [writeAtLength _ _ _ (by omega), hV]
      rw [ihc (w0 + 1) _ (by omega) hVlen2]
      congr 1
      rw [List.map_cons, List.flatten_cons, ← List.append_assoc]
      congr 1
      -- the prefix of the written buffer up to the next wave's offset
      by_cases hfull : w0 + 1 < nDecWaves c ∨ nRest c = 0
      · -- the wave is full (or ends exactly at a full wave boundary)
        have hwf : waveFrames c w0 = c.simd := by
          unfold waveFrames
          rcases hfull with h | h
          · rcases Nat.lt_or_ge w0 (nDecWaves c - 1) with h2 | h2
            · exact hfullLt h2
            · have : w0 = nDecWaves c - 1 := by omega
              omega
          · rw [if_neg (fun hc => hc.2 h)]
        have hidx : (w0 + 1) * c.simd * s = w0 * c.simd * s +
            ((g (stagedY c Y load w0)).take (waveFrames c w0 * s)).length := by
          rw [hpiecelen, hwf]; ring
        rw [hidx]
        exact writeAtTakeExact V _ _ (by omega)
      · -- last, partial wave: the write ends exactly at the end of the buffer
        push_neg at hfull
        have hw0last : w0 = nDecWaves c - 1 := by omega
        have hend : w0 * c.simd * s + waveFrames c w0 * s = V.length := by
          rw [hV]
          have h1 := hlastEq hw0last
          have h2 : (w0 * c.simd + waveFrames c w0) * s = c.n_frames * s := by rw [h1]
          have h3 : (w0 * c.simd + waveFrames c w0) * s =
              w0 * c.simd * s + waveFrames c w0 * s := by ring
          have h4 : c.n_frames * s = s * c.n_frames := by ring
          omega
        have hful := writeAtFull V (w0 * c.simd * s)
          ((g (stagedY c Y load w0)).take (waveFrames c w0 * s)) (by omega)
        have hwl : (writeAt V (w0 * c.simd * s)
            ((g (stagedY c Y load w0)).take (waveFrames c w0 * s))).length = V.length :=
          writeAtLength _ _ _ (by omega)
        have hle : (writeAt V (w0 * c.simd * s)
            ((g (stagedY c Y load w0)).take (waveFrames c w0 * s))).length ≤
            (w0 + 1) * c.simd * s := by
          rw [hwl]
          have h5 : (w0 + 1) * c.simd * s = w0 * c.simd * s + c.simd * s := by ring
          have h6 : waveFrames c w0 * s ≤ c.simd * s :=
            Nat.mul_le_mul_right _ (waveFramesLe c hs w0)
          omega
        rw [List.take_of_length_le hle, hful]

/-- The decoder shape of the wave-batching claim: 5 frames, SIMD width 2. -/
def c52 (K N : ℕ) : DecPar := ⟨K, N, 5, 2⟩

theorem gOfLength (N K : ℕ) (f : List ℚ → List Bool) (hf : ∀ y, (f y).length = K)
    (y : List ℚ) : (gOf 2 N f y).length = 2 * K := by
  show (List.flatten ((List.range 2).map (fun t => f ((y.drop (t * N)).take N)))).length = 2 * K
  rw [List.length_flatten]
  simp [List.range_succ, hf]
  omega

theorem hsrclenGen (Y : List ℚ) (N : ℕ) (hY : Y.length = N * 5) :
    ∀ a m : ℕ, a + m ≤ 5 → ((Y.drop (a * N)).take (m * N)).length = m * N := by
  intro a m h
  rw [List.length_take, List.length_drop, hY]
  have hd : (a + m) * N = a * N + m * N := by ring
  have hle : (a + m) * N ≤ 5 * N := Nat.mul_le_mul_right _ h
  have h5 : N * 5 = 5 * N := by ring
  omega

theorem hframeGen (Y : List ℚ) (N : ℕ) (hY : Y.length = N * 5) :
    ∀ w t wf : ℕ, t < wf → w * 2 + wf ≤ 5 →
    ((writeAt (List.replicate (2 * N) (0:ℚ)) 0
      ((Y.drop (w * 2 * N)).take (wf * N))).drop (t * N)).take N =
    (Y.drop ((w * 2 + t) * N)).take N := by
  intro w t wf ht hwf
  rw [writeAtZero]
  have hww : w * 2 * N = (w * 2) * N := by ring
  have hsl : ((Y.drop (w * 2 * N)).take (wf * N)).length = wf * N := by
    rw [hww]; exact hsrclenGen Y N hY (w * 2) wf hwf
  have htle : t * N ≤ wf * N := Nat.mul_le_mul_right _ (le_of_lt ht)
  rw [List.drop_append_of_le_length (by rw [hsl]; exact htle)]
  have htle2 : N ≤ ((((Y.drop (w * 2 * N)).take (wf * N))).drop (t * N)).length := by
    rw [List.length_drop, hsl]
    have h1 : (t + 1) * N ≤ wf * N := Nat.mul_le_mul_right _ ht
    have h2 : (t + 1) * N = t * N + N := by ring
    omega
  rw [List.take_append_of_le_length htle2]
  rw [List.drop_take, List.take_take]
  have hmin : min N (wf * N - t * N) = N := by
    have h1 : (t + 1) * N ≤ wf * N := Nat.mul_le_mul_right _ ht
    have h2 : (t + 1) * N = t * N + N := by ring
    omega
  rw [hmin, List.drop_drop]
  have hidx : w * 2 * N + t * N = (w * 2 + t) * N := by ring
  rw [hidx]

/-- C2: with n_frames = 5 and simd_inter_frame_level = 2 (three waves, the
last holding one frame), one `hard_decode` call over all five frames, with a
wave primitive that decodes each frame of a wave independently via the
single-frame decode `f`, produces output identical frame by frame to running
the single-frame path five separate times on the same per-frame inputs. -/
theorem waveBatchingEquiv (K N : ℕ) (f : List ℚ → List Bool)
    (hKN : K ≤ N) (hf : ∀ y, (f y).length = K)
    (Y : List ℚ) (V : List Bool) (hY : Y.length = N * 5) (hV : V.length = K * 5) :
    hardDecode (c52 K N) (gOf 2 N f) Y V true true false =
    .ok (singleFrameRuns f N 5 Y) := by
  have hW : nDecWaves (c52 K N) = 3 := by simp [nDecWaves, c52]
  have hR : nRest (c52 K N) = 1 := by simp [nRest, c52]
  have hent1 : ¬((c52 K N).N * (c52 K N).n_frames ≠ Y.length) := by
    show ¬(N * 5 ≠ Y.length)
    omega
  have hent2 : ¬((c52 K N).N * (c52 K N).n_frames < V.length) := by
    show ¬(N * 5 < V.length)
    have : K * 5 ≤ N * 5 := Nat.mul_le_mul_right _ hKN
    omega
  have hfast : ¬(nDecWaves (c52 K N) = 1 ∧ nRest (c52 K N) = 0) := by
    rw [hW]; rintro ⟨h, _⟩; omega
  show (if (c52 K N).N * (c52 K N).n_frames ≠ Y.length then Except.error DecErr.lenY
    else if (c52 K N).N * (c52 K N).n_frames < V.length then Except.error DecErr.lenV
    else if nDecWaves (c52 K N) = 1 ∧ nRest (c52 K N) = 0 then
      innerHD (c52 K N) (gOf 2 N f) Y V true true false
    else waveLoop (c52 K N) (gOf 2 N f) Y true true false
      (List.range (nDecWaves (c52 K N))) V) = _
  rw [if_neg hent1, if_neg hent2, if_neg hfast, hW]
  rw [List.range_eq_range']
  rw [waveLoopRun (c52 K N) (gOf 2 N f) Y true K
    (show (0:ℕ) < 2 by norm_num) (show (0:ℕ) < 5 by norm_num) hKN
    (fun y => le_of_eq (gOfLength N K f hf y).symm)
    (Or.inl rfl) 3 0 V (by rw [hW]) (show V.length = K * 5 from hV)]
  -- wave frame counts
  have hwf0 : waveFrames (c52 K N) 0 = 2 := by
    unfold waveFrames; rw [hW, hR]; simp [c52]
  have hwf1 : waveFrames (c52 K N) 1 = 2 := by
    unfold waveFrames; rw [hW, hR]; simp [c52]
  have hwf2 : waveFrames (c52 K N) 2 = 1 := by
    unfold waveFrames; rw [hW, hR]; simp [c52]
  -- staged buffers in explicit form
  have hst : ∀ w, stagedY (c52 K N) Y true w =
      writeAt (List.replicate (2 * N) (0:ℚ)) 0
        ((Y.drop (w * 2 * N)).take (waveFrames (c52 K N) w * N)) := fun w => rfl
  -- the wave primitive on a staged buffer, in explicit form
  have hgOf : ∀ y : List ℚ, gOf 2 N f y =
      f ((y.drop (0 * N)).take N) ++ (f ((y.drop (1 * N)).take N) ++ []) := fun y => rfl
  have hrange : List.range' 0 3 = [0, 1, 2] := rfl
  have hrange5 : List.range 5 = [0, 1, 2, 3, 4] := rfl
  rw [hrange]
  show Except.ok (V.take (0 * (c52 K N).simd * K) ++ _) = _
  rw [List.map_cons, List.map_cons, List.map_cons, List.map_nil]
  rw [hst 0, hst 1, hst 2, hwf0, hwf1, hwf2]
  rw [hgOf, hgOf, hgOf]
  congr 1
  have hpiece2 : ∀ (a b : List Bool), a.length = K → b.length = K →
      (a ++ (b ++ [])).take (2 * K) = a ++ (b ++ []) := by
    intro a b ha hb
    apply List.take_of_length_le
    simp [ha, hb]
    omega
  have hpiece1 : ∀ (a b : List Bool), a.length = K →
      (a ++ (b ++ [])).take (1 * K) = a := by
    intro a b ha
    rw [Nat.one_mul]
    rw [List.take_append_of_le_length (by rw [ha])]
    exact List.take_of_length_le (le_of_eq ha)
  rw [hpiece2 _ _ (hf _) (hf _), hpiece2 _ _ (hf _) (hf _), hpiece1 _ _ (hf _)]
  rw [hframeGen Y N hY 0 0 2 (by norm_num) (by norm_num),
      hframeGen Y N hY 0 1 2 (by norm_num) (by norm_num),
      hframeGen Y N hY 1 0 2 (by norm_num) (by norm_num),
      hframeGen Y N hY 1 1 2 (by norm_num) (by norm_num),
      hframeGen Y N hY 2 0 1 (by norm_num) (by norm_num)]
  show _ = singleFrameRuns f N 5 Y
  rw [singleFrameRuns, hrange5]
  simp only [List.map_cons, List.map_nil, List.flatten_cons, List.flatten_nil,
    List.append_nil, List.nil_append, List.append_assoc]
  norm_num

/-- Witness for C2: K = N = 1, a constant single-frame decoder, zero input. -/
theorem waveBatchingEquivWitness :
    hardDecode (c52 1 1) (gOf 2 1 (fun _ => [true]))
      (List.replicate 5 0) (List.replicate 5 false) true true false =
    .ok (singleFrameRuns (fun _ => [true]) 1 5 (List.replicate 5 0)) :=
  waveBatchingEquiv 1 1 (fun _ => [true]) (by decide) (fun _ => rfl)
    (List.replicate 5 0) (List.replicate 5 false) (by simp) (by simp)

theorem fastNf (c : DecPar) (hs : 0 < c.simd) (hn : 0 < c.n_frames)
    (h1 : nDecWaves c = 1) (h0 : nRest c = 0) : c.n_frames = c.simd := by
  obtain ⟨_, _, hdec⟩ := wavesDecomp c hs hn
  rw [h1, if_pos h0] at hdec
  simpa using hdec

theorem fastWaves (c : DecPar) (hs : 0 < c.simd) (hnf : c.n_frames = c.simd) :
    nDecWaves c = 1 ∧ nRest c = 0 := by
  constructor
  · show (c.n_frames + c.simd - 1) / c.simd = 1
    rw [hnf]
    have he : c.simd + c.simd - 1 = (c.simd - 1) + c.simd := by omega
    rw [he, Nat.add_div_right _ hs, Nat.div_eq_of_lt (by omega)]
  · show c.n_frames % c.simd = 0
    rw [hnf, Nat.mod_self]

/-- C10: on the fast path (exactly one wave and no remainder, i.e.
`n_frames = simd_inter_frame_level`), `hard_decode` with store enabled and
fast store disabled never raises the shape-inconsistency error: an output
buffer whose length lies strictly between `K * n_frames` and `N * n_frames`
is accepted, and the decoder's store fills its front — the K-versus-N shape
discrimination happens only on the general multi-wave path, the fast path
only requiring `len V ≥ K * simd_inter_frame_level`. -/
theorem fastPathNoShapeErr (c : DecPar) (g : List ℚ → List Bool)
    (Y : List ℚ) (V : List Bool)
    (hfast : c.n_frames = c.simd) (hs : 0 < c.simd)
    (hY : Y.length = c.N * c.n_frames)
    (hlo : c.K * c.n_frames < V.length) (hhi : V.length < c.N * c.n_frames) :
    hardDecode c g Y V true true false = .ok (writeAt V 0 (g Y)) := by
  obtain ⟨hW, hR⟩ := fastWaves c hs hfast
  show (if c.N * c.n_frames ≠ Y.length then Except.error DecErr.lenY
    else if c.N * c.n_frames < V.length then Except.error DecErr.lenV
    else if nDecWaves c = 1 ∧ nRest c = 0 then innerHD c g Y V true true false
    else waveLoop c g Y true true false (List.range (nDecWaves c)) V) = _
  rw [if_neg (by omega), if_neg (by omega), if_pos ⟨hW, hR⟩]
  show (if true = true ∧ c.N * c.simd > Y.length then Except.error DecErr.loadLen
    else if true = true then
      if false = true then Except.ok (writeAt V 0 (g Y))
      else if c.K * c.simd > V.length then Except.error DecErr.storeLen
      else Except.ok (writeAt V 0 (g Y))
    else Except.ok V) = _
  have hYload : ¬(true = true ∧ c.N * c.simd > Y.length) := by
    rintro ⟨_, hgt⟩
    rw [hY, hfast] at hgt
    omega
  have hstore : ¬(c.K * c.simd > V.length) := by
    rw [← hfast]
    omega
  rw [if_neg hYload, if_pos rfl, if_neg (by simp), if_neg hstore]

/-- Witness for C10: K = 1, N = 3, two frames at SIMD width 2, output buffer
of length 4 (strictly between 2 and 6). -/
theorem fastPathNoShapeErrWitness :
    hardDecode ⟨1, 3, 2, 2⟩ (fun _ => [true, true])
      (List.replicate 6 0) (List.replicate 4 false) true true false =
    .ok (writeAt (List.replicate 4 false) 0 [true, true]) :=
  fastPathNoShapeErr ⟨1, 3, 2, 2⟩ (fun _ => [true, true])
    (List.replicate 6 0) (List.replicate 4 false)
    rfl (by norm_num) (by simp) (by simp) (by simp)

/-- Inside the general-path loop, `__hard_decode` on the staging buffers
never fails, whatever the flags: the staged input always satisfies the load
length check and the staging output buffer the store length check. -/
theorem innerNeverErr (c : DecPar) (g : List ℚ → List Bool) (Y : List ℚ)
    (load store sf : Bool) (w : ℕ) (hs : 0 < c.simd) (hKN : c.K ≤ c.N) :
    ∀ e, innerHD c g (stagedY c Y load w) (List.replicate (c.simd * c.N) false)
      load store sf ≠ .error e := by
  intro e
  unfold innerHD
  have hcond : ¬(load = true ∧ c.N * c.simd > (stagedY c Y load w).length) := by
    rintro ⟨_, hgt⟩
    rw [stagedYLength c Y load w hs, Nat.mul_comm] at hgt
    omega
  rw [if_neg hcond]
  have hstore : ¬(c.K * c.simd > (List.replicate (c.simd * c.N) false).length) := by
    simp only [List.length_replicate]
    have h1 : c.K * c.simd ≤ c.N * c.simd := Nat.mul_le_mul_right _ hKN
    rw [Nat.mul_comm c.simd c.N]
    omega
  cases store
  · simp
  · cases sf
    · have hstore2 : ¬(c.simd * c.N < c.K * c.simd) := by
        have h1 : c.K * c.simd ≤ c.N * c.simd := Nat.mul_le_mul_right _ hKN
        have h2 : c.simd * c.N = c.N * c.simd := Nat.mul_comm _ _
        omega
      simp [hstore2]
    · simp

/-- On the general path, the only error the loop can raise is the shape
error. -/
theorem waveLoopOnlyShape (c : DecPar) (g : List ℚ → List Bool) (Y : List ℚ)
    (load store sf : Bool) (hs : 0 < c.simd) (hKN : c.K ≤ c.N) :
    ∀ (ws : List ℕ) (V : List Bool) (e : DecErr),
      waveLoop c g Y load store sf ws V = .error e → e = .shape := by
  intro ws
  induction ws with
  | nil => intro V e h; exact absurd h (by simp [waveLoop])
  | cons w ws ihw =>
      intro V e h
      rw [waveLoop] at h
      rcases hinner : innerHD c g (stagedY c Y load w)
          (List.replicate (c.simd * c.N) false) load store sf with e2 | Vw
      · exact absurd hinner (innerNeverErr c g Y load store sf w hs hKN e2)
      · rw [hinner] at h
        simp only at h
        cases store
        · simp only [Bool.false_eq_true, if_false] at h
          exact ihw V e h
        · simp only [if_true] at h
          by_cases h1 : c.K * c.n_frames = V.length
          · rw [if_pos h1] at h
            exact ihw _ e h
          · rw [if_neg h1] at h
            by_cases h2 : c.N * c.n_frames = V.length
            · rw [if_pos h2] at h
              exact ihw _ e h
            · rw [if_neg h2] at h
              exact ((Except.error.injEq _ _).mp h).symm

theorem hardDecodeEq (c : DecPar) (g : List ℚ → List Bool) (Y : List ℚ) (V : List Bool)
    (load store sf : Bool) :
    hardDecode c g Y V load store sf =
    (if c.N * c.n_frames ≠ Y.length then .error .lenY
     else if c.N * c.n_frames < V.length then .error .lenV
     else if nDecWaves c = 1 ∧ nRest c = 0 then innerHD c g Y V load store sf
     else waveLoop c g Y load store sf (List.range (nDecWaves c)) V) := rfl

theorem innerHDEq (c : DecPar) (g : List ℚ → List Bool) (Yw : List ℚ) (V : List Bool)
    (load store sf : Bool) :
    innerHD c g Yw V load store sf =
    (if load = true ∧ c.N * c.simd > Yw.length then .error .loadLen
     else if store = true then
       if sf = true then .ok (writeAt V 0 (g Yw))
       else if c.K * c.simd > V.length then .error .storeLen
       else .ok (writeAt V 0 (g Yw))
     else .ok V) := rfl

/-- C6 (amended): with `load` on, `hard_decode` raises a `LengthError` if
and only if `len Y ≠ N * n_frames`, or `len V > N * n_frames`, or — the
correction the code forces — on the fast path with (non-fast) store enabled
when `len V < K * simd_inter_frame_level` (the fast path's store length
check, absent from the claim).  On the general multi-wave path with store
enabled: if `len V = K * n_frames` only the first
`n_frames_per_wave * K` results of each wave are copied at the K-scaled
offsets, else if `len V = N * n_frames` the `n_frames_per_wave * N`-sized
results are copied at the N-scaled offsets, and otherwise the
shape-inconsistency error is raised. -/
theorem hardDecodeErrors (c : DecPar) (g : List ℚ → List Bool)
    (Y : List ℚ) (V : List Bool) (store sf : Bool)
    (hs : 0 < c.simd) (hn : 0 < c.n_frames) (hKN : c.K ≤ c.N)
    (hg : ∀ y, c.simd * c.N ≤ (g y).length) :
    ((∃ e, hardDecode c g Y V true store sf = .error e ∧ isLengthErr e = true) ↔
      (c.N * c.n_frames ≠ Y.length ∨ c.N * c.n_frames < V.length ∨
        (nDecWaves c = 1 ∧ nRest c = 0 ∧ store = true ∧ sf = false ∧
          V.length < c.K * c.simd))) ∧
    (¬(nDecWaves c = 1 ∧ nRest c = 0) → c.N * c.n_frames = Y.length →
      ¬(c.N * c.n_frames < V.length) → store = true → sf = false →
      ((V.length = c.K * c.n_frames →
         hardDecode c g Y V true store sf =
         .ok (List.flatten ((List.range' 0 (nDecWaves c)).map (fun w =>
           (g (stagedY c Y true w)).take (waveFrames c w * c.K))))) ∧
       (V.length ≠ c.K * c.n_frames → V.length = c.N * c.n_frames →
         hardDecode c g Y V true store sf =
         .ok (List.flatten ((List.range' 0 (nDecWaves c)).map (fun w =>
           (g (stagedY c Y true w)).take (waveFrames c w * c.N))))) ∧
       (V.length ≠ c.K * c.n_frames → V.length ≠ c.N * c.n_frames →
         hardDecode c g Y V true store sf = .error .shape))) := by
  obtain ⟨hW1, hRlt, hdecomp⟩ := wavesDecomp c hs hn
  constructor
  · constructor
    · -- a LengthError forces one of the three conditions
      rintro ⟨e, he, hlen⟩
      by_cases h1 : c.N * c.n_frames ≠ Y.length
      · exact Or.inl h1
      by_cases h2 : c.N * c.n_frames < V.length
      · exact Or.inr (Or.inl h2)
      rw [hardDecodeEq, if_neg h1, if_neg h2] at he
      by_cases h3 : nDecWaves c = 1 ∧ nRest c = 0
      · rw [if_pos h3] at he
        have hnf := fastNf c hs hn h3.1 h3.2
        have hYlen : c.N * c.n_frames = Y.length := not_ne_iff.mp h1
        rw [innerHDEq] at he
        have hload : ¬(true = true ∧ c.N * c.simd > Y.length) := by
          rintro ⟨_, hgt⟩
          rw [← hYlen, hnf] at hgt
          omega
        rw [if_neg hload] at he
        cases hst : store
        · rw [hst] at he
          simp at he
        · rw [hst] at he
          cases hsf : sf
          · rw [hsf] at he
            simp only [if_pos] at he
            by_cases hv : c.K * c.simd > V.length
            · refine Or.inr (Or.inr ⟨h3.1, h3.2, rfl, rfl, by omega⟩)
            · rw [if_neg (by simp), if_neg hv] at he
              simp at he
          · rw [hsf] at he
            simp at he
      · rw [if_neg h3] at he
        have := waveLoopOnlyShape c g Y true store sf hs hKN _ V e he
        rw [this] at hlen
        simp [isLengthErr] at hlen
    · -- each condition indeed raises a LengthError
      rintro (h1 | h2 | ⟨hw1, hw0, hst, hsf, hv⟩)
      · exact ⟨.lenY, by rw [hardDecodeEq, if_pos h1], rfl⟩
      · by_cases h1 : c.N * c.n_frames ≠ Y.length
        · exact ⟨.lenY, by rw [hardDecodeEq, if_pos h1], rfl⟩
        · exact ⟨.lenV, by rw [hardDecodeEq, if_neg h1, if_pos h2], rfl⟩
      · by_cases h1 : c.N * c.n_frames ≠ Y.length
        · exact ⟨.lenY, by rw [hardDecodeEq, if_pos h1], rfl⟩
        by_cases h2 : c.N * c.n_frames < V.length
        · exact ⟨.lenV, by rw [hardDecodeEq, if_neg h1, if_pos h2], rfl⟩
        refine ⟨.storeLen, ?_, rfl⟩
        rw [hardDecodeEq, if_neg h1, if_neg h2, if_pos ⟨hw1, hw0⟩]
        have hnf := fastNf c hs hn hw1 hw0
        have hYlen : c.N * c.n_frames = Y.length := not_ne_iff.mp h1
        rw [innerHDEq]
        have hload : ¬(true = true ∧ c.N * c.simd > Y.length) := by
          rintro ⟨_, hgt⟩
          rw [← hYlen, hnf] at hgt
          omega
        rw [if_neg hload, hst, hsf, if_pos rfl, if_neg (by simp),
          if_pos (by omega)]
  · -- general path store behavior
    intro hgen hYlen hVle hst hsf
    have hKg : ∀ y, c.simd * c.K ≤ (g y).length := by
      intro y
      have h1 : c.simd * c.K ≤ c.simd * c.N := Nat.mul_le_mul_left _ hKN
      exact le_trans h1 (hg y)
    refine ⟨?_, ?_, ?_⟩
    · intro hVK
      rw [hardDecodeEq, if_neg (by omega), if_neg hVle, if_neg hgen,
        List.range_eq_range', hst, hsf]
      rw [waveLoopRun c g Y true c.K hs hn hKN hKg (Or.inl rfl) (nDecWaves c) 0 V
        (by omega) (by rw [hVK])]
      simp only [Nat.zero_mul, List.take_zero, List.nil_append]
    · intro hVK hVN
      rw [hardDecodeEq, if_neg (by omega), if_neg hVle, if_neg hgen,
        List.range_eq_range', hst, hsf]
      have hKN2 : c.K * c.n_frames ≠ c.N * c.n_frames := by
        omega
      rw [waveLoopRun c g Y true c.N hs hn hKN hg (Or.inr ⟨rfl, hKN2⟩) (nDecWaves c) 0 V
        (by omega) (by rw [hVN])]
      simp only [Nat.zero_mul, List.take_zero, List.nil_append]
    · intro hVK hVN
      rw [hardDecodeEq, if_neg (by omega), if_neg hVle, if_neg hgen,
        List.range_eq_range', hst, hsf]
      obtain ⟨m, hm⟩ : ∃ m, nDecWaves c = m + 1 := ⟨nDecWaves c - 1, by omega⟩
      rw [hm, List.range'_succ 0 m 1]
      rw [waveLoop]
      rcases hinner : innerHD c g (stagedY c Y true 0)
          (List.replicate (c.simd * c.N) false) true true false with e2 | Vw
      · exact absurd hinner (innerNeverErr c g Y true true false 0 hs hKN e2)
      · dsimp only
        rw [if_pos rfl, if_neg (fun h => hVK h.symm), if_neg (fun h => hVN h.symm)]

/-- Counterexample to C6 as stated: with K=1, N=2, one frame at SIMD width 1
(the fast path), a valid-length input and an output buffer of length 0
(which satisfies `len V ≤ N * n_frames`), `hard_decode` nevertheless raises
a `LengthError` — the fast-path store's length check — so "LengthError
exactly when `len Y ≠ N*n_frames` or `len V > N*n_frames`" is false. -/
theorem hardDecodeLenErrCounterexample :
    hardDecode ⟨1, 2, 1, 1⟩ (fun _ => [true, false]) [0, 0] [] true true false =
      .error .storeLen ∧
    isLengthErr .storeLen = true ∧
    (⟨1, 2, 1, 1⟩ : DecPar).N * (⟨1, 2, 1, 1⟩ : DecPar).n_frames = ([0, 0] : List ℚ).length ∧
    ([] : List Bool).length ≤ (⟨1, 2, 1, 1⟩ : DecPar).N * (⟨1, 2, 1, 1⟩ : DecPar).n_frames :=
  ⟨rfl, rfl, rfl, Nat.zero_le _⟩

/-- Witness for the amended C6: the same concrete instance exercises the
corrected length-error characterization. -/
theorem hardDecodeErrorsWitness :
    ∃ e, hardDecode ⟨1, 2, 1, 1⟩ (fun _ => [true, false]) [0, 0] [] true true false =
      .error e ∧ isLengthErr e = true :=
  (hardDecodeErrors ⟨1, 2, 1, 1⟩ (fun _ => [true, false]) [0, 0] [] true false
    (by norm_num) (by norm_num) (by norm_num) (fun y => by norm_num)).1.mpr
    (Or.inr (Or.inr ⟨rfl, rfl, rfl, rfl, by norm_num⟩))

/-! ### Decoder constructor validation (`Decoder_polar_MK_SC_naive` ctor) -/

/-- Modelled from the spec where `tools::Polar_code` is not under `src/`:
kernel matrices indexed by stage, a stage assignment, the declared codeword
size, and the mono-kernel property ("a single kernel shape reused at every
stage", modelled as having exactly one kernel matrix). -/
structure Polar_code where
  kernel_matrices : List (List (List Bool))
  stages : List ℕ
  codeword_size : ℕ

/-- Modelled from the spec: `Polar_code::is_mono_kernel`. -/
def is_mono_kernel (code : Polar_code) : Bool :=
  decide (code.kernel_matrices.length = 1)

/-- Whether a kernel matrix is one of the recognized shapes
(constructor lines 104-192). -/
def recognizedKernel (G : List (List Bool)) : Bool :=
  decide (G = kArikan) || decide (G = kT1) || decide (G = kT2)

/-- Errors of the decoder constructor, in the order the checks appear. -/
inductive CtorErr where
  | argK          -- base Decoder: K <= 0
  | argN          -- base Decoder: N <= 0
  | argKN         -- base Decoder: K > N
  | notMono       -- 'code.is_mono_kernel()' has to be true
  | baseTooSmall  -- 'base' has to be bigger or equal to 2
  | badCodewordSize
  | frozenLen     -- 'frozen_bits.size()' has to be equal to 'N'
  | frozenCount   -- number of information bits in the frozen_bits invalid
  | unsupportedKernel
deriving DecidableEq, Repr

/-- The constructed decoder state (what the constructor initializes when
all checks pass). -/
structure DecState where
  K : ℕ
  N : ℕ
  frozen_bits : List Bool
deriving DecidableEq, Repr

/-- The constructor's validation sequence (lines 14-193), in source order.
The second component of the error is whether the tree node contents had
already been allocated (line 76, `recursive_allocate_nodes_contents`) when
the error was raised: every check up to the frozen-bit count runs before the
allocation, while the kernel-recognition check (lines 104-192) runs after
it. -/
def decoderCtor (K N : ℕ) (code : Polar_code) (frozen_bits : List Bool) :
    Except (CtorErr × Bool) DecState :=
  if K = 0 then .error (.argK, false)
  else if N = 0 then .error (.argN, false)
  else if N < K then .error (.argKN, false)
  else if ¬ is_mono_kernel code then .error (.notMono, false)
  else if (code.kernel_matrices.getD 0 []).length < 2 then .error (.baseTooSmall, false)
  else if N ≠ code.codeword_size then .error (.badCodewordSize, false)
  else if frozen_bits.length ≠ N then .error (.frozenLen, false)
  else if (frozen_bits.filter (fun b => !b)).length ≠ K then .error (.frozenCount, false)
  else -- tree node contents are allocated here (lines 76-77)
    if recognizedKernel (code.kernel_matrices.getD 0 []) then
      .ok ⟨K, N, frozen_bits⟩
    else .error (.unsupportedKernel, true)

/-- Counterexample to C3 as stated: an unrecognized 2x2 kernel that passes
every earlier check makes construction fail only after the tree node
contents have been allocated (allocation flag `true`), not before. -/
theorem ctorAllocCounterexample :
    decoderCtor 2 2 ⟨[[[true, true], [true, true]]], [0], 2⟩ [false, false] =
      .error (.unsupportedKernel, true) := rfl

/-- C3 (amended): every constructor failure except the unsupported-kernel
failure occurs before any tree node content is allocated; the
unsupported-kernel failure occurs after the tree node contents have been
allocated (the throw at lines 187-192 follows the allocation at line 76).
Since the constructor throws, no decoder object is produced in either case. -/
theorem ctorAllocCharacterization (K N : ℕ) (code : Polar_code)
    (frozen_bits : List Bool) (e : CtorErr) (alloc : Bool)
    (h : decoderCtor K N code frozen_bits = .error (e, alloc)) :
    alloc = true ↔ e = .unsupportedKernel := by
  unfold decoderCtor at h
  split_ifs at h <;>
    first
      | (simp only [Except.error.injEq, Prod.mk.injEq] at h
         obtain ⟨he, ha⟩ := h
         subst he
         subst ha
         simp)
      | simp_all

/-- Witness for the amended C3: at the concrete unsupported-kernel input the
characterization instantiates to a truth. -/
theorem ctorAllocCharacterizationWitness :
    (true = true ↔ CtorErr.unsupportedKernel = CtorErr.unsupportedKernel) :=
  ctorAllocCharacterization 2 2 ⟨[[[true, true], [true, true]]], [0], 2⟩ [false, false]
    .unsupportedKernel true rfl

/-- C7: with the other construction preconditions of the spec satisfied
(mono-kernel, kernel dimension at least 2, N equal to the declared codeword
size, mask length N, recognized kernel, and the base checks 0 < K ≤ N), the
decoder constructor succeeds if and only if the number of zero entries in
the frozen mask equals K, and a count mismatch yields the runtime
inconsistency error (before any tree node content is allocated). -/
theorem ctorFrozenCount (K N : ℕ) (code : Polar_code) (frozen_bits : List Bool)
    (hK : 0 < K) (hN : 0 < N) (hKN : K ≤ N)
    (hmono : is_mono_kernel code = true)
    (hbase : 2 ≤ (code.kernel_matrices.getD 0 []).length)
    (hcw : N = code.codeword_size)
    (hflen : frozen_bits.length = N)
    (hrec : recognizedKernel (code.kernel_matrices.getD 0 []) = true) :
    ((∃ s, decoderCtor K N code frozen_bits = .ok s) ↔
      (frozen_bits.filter (fun b => !b)).length = K) ∧
    ((frozen_bits.filter (fun b => !b)).length ≠ K →
      decoderCtor K N code frozen_bits = .error (.frozenCount, false)) := by
  unfold decoderCtor
  rw [if_neg (by omega), if_neg (by omega), if_neg (by omega),
    if_neg (by simp [hmono]), if_neg (by omega), if_neg (by omega),
    if_neg (by omega)]
  by_cases hcount : (frozen_bits.filter (fun b => !b)).length = K
  · rw [if_neg (by omega), if_pos hrec]
    exact ⟨⟨fun _ => hcount, fun _ => ⟨_, rfl⟩⟩, fun hc => absurd hcount hc⟩
  · rw [if_pos (by omega)]
    refine ⟨⟨?_, fun hc => absurd hc hcount⟩, fun _ => rfl⟩
    rintro ⟨s, hscontra⟩
    exact absurd hscontra (by simp)

/-- Witness for C7: the Arikan kernel with N = 2, K = 1 and one frozen lane. -/
theorem ctorFrozenCountWitness :
    ∃ s, decoderCtor 1 2 ⟨[kArikan], [0], 2⟩ [true, false] = .ok s :=
  (ctorFrozenCount 1 2 ⟨[kArikan], [0], 2⟩ [true, false] (by norm_num) (by norm_num)
    (by norm_num) (by decide) (by decide) rfl rfl (by decide)).1.mpr (by decide)

/-! ### The Task port framework (`Task.cpp`) -/

/-- Errors of the `Task` operations (all `tools::runtime_error` or
`tools::unimplemented_error` in the source; named after the spec's
taxonomy). -/
inductive TaskErr where
  | emptyName      -- create_socket: "the name is empty" (lines 254-260)
  | duplicateName  -- create_socket: "an other socket has the same name" (262-270)
  | notReady       -- exec: "some of the inputs/outputs are not fed" (242-248)
  | unimplemented  -- default codelet (line 24)
deriving DecidableEq, Repr

/-- A socket: a named, sized port whose buffer pointer may be null
(`none`).  Pointers are abstracted to opaque ids. -/
structure SocketM where
  name : String
  databytes : ℕ
  dataptr : Option ℕ
deriving DecidableEq, Repr

/-- A task: its sockets in creation order, the stats flag, the call counter
and duration statistics (durations as abstract tick counts), and the
codelet, abstracted by its outcome (a thrown error or a returned status). -/
structure TaskM where
  sockets : List SocketM
  stats : Bool
  n_calls : ℕ
  duration_total : ℕ
  duration_min : ℕ
  duration_max : ℕ
  codelet : Except TaskErr Int

/-- `Task::create_socket` (lines 251-275): fail on an empty name, fail when
another socket already has the name, else append the socket (with a null
pointer, as the `Socket` constructor leaves it). -/
def create_socket (t : TaskM) (name : String) (databytes : ℕ) :
    Except TaskErr TaskM :=
  if name = "" then .error .emptyName
  else if t.sockets.any (fun s => s.name = name) then .error .duplicateName
  else .ok { t with sockets := t.sockets ++ [⟨name, databytes, none⟩] }

/-- `Task::can_exec` (lines 352-358): every socket's pointer is non-null. -/
def can_exec (t : TaskM) : Bool :=
  t.sockets.all (fun s => s.dataptr.isSome)

/-- `Task::exec` (lines 135-249), with the debug printing elided (it does
not mutate the task) and the measured duration `d` supplied as an abstract
input: if some socket is unbound, fail; otherwise run the codelet — if it
throws, the exception propagates with no state change (the counter and
duration updates at lines 196-210 are only reached after a normal return);
if it returns, update the duration statistics when stats are enabled (the
first call seeds min and max) and increment the call counter. -/
def exec (t : TaskM) (d : ℕ) : TaskM × Except TaskErr Int :=
  if can_exec t then
    match t.codelet with
    | .error e => (t, .error e)
    | .ok status =>
        let t2 := if t.stats then
            { t with
              duration_total := t.duration_total + d,
              duration_min := if t.n_calls ≠ 0 then min t.duration_min d else d,
              duration_max := if t.n_calls ≠ 0 then max t.duration_max d else d }
          else t
        ({ t2 with n_calls := t2.n_calls + 1 }, .ok status)
  else (t, .error .notReady)

/-- Counterexample to C8 as stated: a task whose every port is bound but
whose codelet is the default (throwing) one: `exec` does not succeed and
the call counter does not increase, so "once every port is bound, each
exec() call succeeds and increases the call counter by exactly one" is
false. -/
theorem taskExecCounterexample :
    (can_exec ⟨[⟨"in", 4, some 0⟩], false, 0, 0, 0, 0, .error .unimplemented⟩ = true) ∧
    (exec ⟨[⟨"in", 4, some 0⟩], false, 0, 0, 0, 0, .error .unimplemented⟩ 0).2 =
      .error .unimplemented ∧
    (exec ⟨[⟨"in", 4, some 0⟩], false, 0, 0, 0, 0, .error .unimplemented⟩ 0).1.n_calls = 0 :=
  ⟨rfl, rfl, rfl⟩

/-- C8 (amended): creating a second port with the name of an existing port
always fails, creating a port with an empty name always fails, calling
`exec()` while some port's buffer pointer is null always fails (leaving the
task unchanged), and — amended as the default throwing codelet forces —
once every port is bound and the bound codelet returns normally, each
`exec()` call succeeds and increases the call counter by exactly one. -/
theorem taskPortContract :
    (∀ (t : TaskM) (name : String) (db : ℕ),
      (∃ s ∈ t.sockets, s.name = name) →
        ∃ e, create_socket t name db = .error e) ∧
    (∀ (t : TaskM) (db : ℕ), create_socket t "" db = .error .emptyName) ∧
    (∀ (t : TaskM) (d : ℕ), can_exec t = false →
      exec t d = (t, .error .notReady)) ∧
    (∀ (t : TaskM) (d : ℕ) (status : Int), can_exec t = true →
      t.codelet = .ok status →
      (exec t d).2 = .ok status ∧ (exec t d).1.n_calls = t.n_calls + 1) := by
  refine ⟨?_, ?_, ?_, ?_⟩
  · intro t name db ⟨s, hs, hname⟩
    unfold create_socket
    by_cases hempty : name = ""
    · exact ⟨.emptyName, by rw [if_pos hempty]⟩
    · refine ⟨.duplicateName, ?_⟩
      rw [if_neg hempty, if_pos ?_]
      rw [List.any_eq_true]
      exact ⟨s, hs, by simp [hname]⟩
  · intro t db
    unfold create_socket
    rw [if_pos rfl]
  · intro t d hne
    unfold exec
    rw [if_neg (by simp [hne])]
  · intro t d status hce hcod
    unfold exec
    rw [if_pos (by simp [hce]), hcod]
    cases ht : t.stats <;> simp [ht]

/-- Witness for the amended C8: a concrete bound task with a returning
codelet. -/
theorem taskPortContractWitness :
    (exec ⟨[⟨"in", 4, some 0⟩], false, 3, 0, 0, 0, .ok 0⟩ 7).2 = .ok 0 ∧
    (exec ⟨[⟨"in", 4, some 0⟩], false, 3, 0, 0, 0, .ok 0⟩ 7).1.n_calls = 3 + 1 :=
  taskPortContract.2.2.2 ⟨[⟨"in", 4, some 0⟩], false, 3, 0, 0, 0, .ok 0⟩ 7 0 rfl rfl

/-- C9: if the codelet invoked by `exec` throws (including the default
unbound codelet, which throws the unimplemented error), the task — its call
counter and all duration statistics — is left entirely unchanged, and the
error propagates: counter and statistics are only updated after a normal
return. -/
theorem taskExecThrowNoUpdate (t : TaskM) (d : ℕ) (e : TaskErr)
    (hcod : t.codelet = .error e) :
    (can_exec t = true → exec t d = (t, .error e)) ∧
    (exec t d).1 = t := by
  constructor
  · intro hce
    unfold exec
    rw [if_pos (by simp [hce]), hcod]
  · unfold exec
    by_cases hce : can_exec t = true
    · rw [if_pos (by simp [hce]), hcod]
    · rw [if_neg (by simpa using hce)]

/-- Witness for C9: the default-codelet task with one bound socket. -/
theorem taskExecThrowNoUpdateWitness :
    (can_exec ⟨[⟨"in", 4, some 0⟩], true, 5, 9, 2, 4, .error .unimplemented⟩ = true →
      exec ⟨[⟨"in", 4, some 0⟩], true, 5, 9, 2, 4, .error .unimplemented⟩ 3 =
        (⟨[⟨"in", 4, some 0⟩], true, 5, 9, 2, 4, .error .unimplemented⟩, .error .unimplemented)) ∧
    (exec ⟨[⟨"in", 4, some 0⟩], true, 5, 9, 2, 4, .error .unimplemented⟩ 3).1 =
      ⟨[⟨"in", 4, some 0⟩], true, 5, 9, 2, 4, .error .unimplemented⟩ :=
  taskExecThrowNoUpdate ⟨[⟨"in", 4, some 0⟩], true, 5, 9, 2, 4, .error .unimplemented⟩ 3
    .unimplemented rfl
